import Mathlib

/-!
Shallow embedding of the account pool, rotating authenticator, search
iteration, account-list parsing and two-factor login retry logic of the
scraping gateway, together with proofs of the specified properties.

Conventions used throughout:
* JavaScript numbers that hold millisecond timestamps are modelled as `Nat`;
  an optional field is `Option Nat`.  JavaScript truthiness of such a field
  (`undefined` and `0` are falsy) is modelled by `truthyOpt`.
* External effects (the scraper's login calls, the random proxy pick, the
  upstream HTTP responses) are oracles passed in as function parameters.
* The active pool aliases the store entries in the source (the same objects
  live in `db.data.accounts` and in `activeAccounts`), so the pool is
  modelled as the list of active usernames and the store as the single list
  of account states.
-/

namespace Docial

/-- Liveness of an account's session cookie, from `AccountState.tokenState`. -/
inductive TokenState where
  | unknown
  | working
  | failed
deriving DecidableEq

/-- `AccountInfo` from `search.ts` / `account-manager.ts`. -/
structure AccountInfo where
  username : String
  password : String
  email : String
  emailPassword : String
  authToken : String
  twoFactorSecret : String
deriving DecidableEq

/-- `AccountState` from `search.ts`: the credential record plus the mutable
runtime fields persisted in the JSON store. -/
structure AccountState where
  username : String
  password : String
  email : String
  emailPassword : String
  authToken : String
  twoFactorSecret : String
  tokenState : TokenState
  failedLogin : Bool
  lastUsed : Option Nat
  lastFailedAt : Option Nat
  rateLimitedUntil : Option Nat
  assignedProxy : Option String
deriving DecidableEq

/-- JavaScript truthiness of an optional number (`undefined` and `0` are
falsy). -/
def truthyOpt (o : Option Nat) : Bool :=
  match o with
  | none => false
  | some t => decide (t ≠ 0)

/-- The test `rl && rl > Date.now()` used to skip rate-limited accounts. -/
def truthyGt (now : Nat) (o : Option Nat) : Bool :=
  match o with
  | none => false
  | some t => decide (t ≠ 0) && decide (now < t)

/-- Usernames of a list of account states. -/
def usernames (l : List AccountState) : List String :=
  l.map (·.username)

/-- `db.data.accounts.find((a) => a.username === username)`. -/
def findAccount (l : List AccountState) (u : String) : Option AccountState :=
  l.find? (fun a => a.username == u)

/-- Mutating the account object found by `find` updates the first store entry
with the given username. -/
def setFirst (l : List AccountState) (u : String) (f : AccountState → AccountState) :
    List AccountState :=
  match l with
  | [] => []
  | a :: rest =>
    if a.username == u then f a :: rest else a :: setFirst rest u f

/-- `findIndex` + `splice(i, 1)`: remove the first occurrence of a username
from the active list. -/
def removeFirst (l : List String) (u : String) : List String :=
  match l with
  | [] => []
  | x :: xs => if x == u then xs else x :: removeFirst xs u

/-- In-memory state of `AccountManager`: the persisted store, the usernames
of the active pool (`activeAccounts`, which alias store entries), and the
round-robin cursor. -/
structure ManagerState where
  accounts : List AccountState
  active : List String
  roundRobinIndex : Nat
deriving DecidableEq

/-- `AccountManager.updateRateLimit`: set or clear `rateLimitedUntil` on the
store entry; the active list is untouched. -/
def updateRateLimit (st : ManagerState) (u : String) (until_ : Option Nat) :
    ManagerState :=
  match findAccount st.accounts u with
  | none => st
  | some _ =>
    { st with accounts := setFirst st.accounts u (fun a => { a with rateLimitedUntil := until_ }) }

/-- `AccountManager.markFailed`: set `failedLogin`/`tokenState`/`lastFailedAt`
on the store entry and drop the account from the active pool.  (The
asynchronous replenishment it triggers is the separate `initPool` operation.) -/
def markFailed (now : Nat) (st : ManagerState) (u : String) : ManagerState :=
  match findAccount st.accounts u with
  | none => st
  | some _ =>
    { st with
      accounts := setFirst st.accounts u (fun a =>
        { a with failedLogin := true, tokenState := .failed, lastFailedAt := some now }),
      active := removeFirst st.active u }

/-- `AccountManager.deleteAccount`: filter the store; when an entry was
removed, also drop the username from the active pool. -/
def deleteAccount (st : ManagerState) (u : String) : ManagerState :=
  let accs := st.accounts.filter (fun a => !(a.username == u))
  if accs.length = st.accounts.length then { st with accounts := accs }
  else { st with accounts := accs, active := removeFirst st.active u }

/-- `assignProxyToAccount`: keep an existing assignment; otherwise persist a
proxy from the external random pick oracle when a proxy list exists.  A
`none` pick models the `PROXY_URI` fallback, which does not mutate the
account. -/
def assignProxy (pick : String → Option String) (a : AccountState) : AccountState :=
  match a.assignedProxy with
  | some _ => a
  | none =>
    match pick a.username with
    | some p => { a with assignedProxy := some p }
    | none => a

/-- New store entry built by `addAccounts`. -/
def mkState (r : AccountInfo) : AccountState :=
  { username := r.username, password := r.password, email := r.email,
    emailPassword := r.emailPassword, authToken := r.authToken,
    twoFactorSecret := r.twoFactorSecret,
    tokenState := .unknown, failedLogin := false,
    lastUsed := none, lastFailedAt := none, rateLimitedUntil := none,
    assignedProxy := none }

/-- One iteration of `AccountManager.addAccounts` (`search.ts`): push the
record only when the username is non-empty and not already present. -/
def addOne (pick : String → Option String) (accs : List AccountState) (r : AccountInfo) :
    List AccountState :=
  if r.username ≠ "" ∧ ¬ (accs.any (fun a => a.username == r.username)) then
    accs ++ [assignProxy pick (mkState r)]
  else accs

/-- `AccountManager.addAccounts` (`search.ts` variant): idempotent-by-username
batch record ingestion.  (The pool re-initialization it triggers is the
separate `initPool` operation.) -/
def addAccounts (pick : String → Option String) (st : ManagerState)
    (newAccounts : List AccountInfo) : ManagerState :=
  { st with accounts := newAccounts.foldl (addOne pick) st.accounts }

/-- `AccountManager.resetFailedLogins`: clear failure and rate-limit state on
every store entry, drop the proxy assignment and reassign from the list when
one exists.  (The re-initialization it triggers is the separate `initPool`.) -/
def resetFailedLogins (pick : String → Option String) (st : ManagerState) :
    ManagerState :=
  { st with accounts := st.accounts.map (fun a =>
      assignProxy pick
        { a with failedLogin := false, tokenState := .unknown,
                 lastFailedAt := none, rateLimitedUntil := none,
                 assignedProxy := none }) }

/-- Result of `getNextAccount`: `poolEmpty` models the exception thrown by
`ensureInitialized` when the pool has no active account, `noneUsable` the
`null` returned after a full revolution found only rate-limited sessions. -/
inductive DispatchRes where
  | poolEmpty
  | noneUsable
  | dispatched (u : String)
deriving DecidableEq

/-- `rateLimitedUntil` of the account aliased by active slot `j`. -/
def rlOfIdx (st : ManagerState) (j : Nat) : Option Nat :=
  match findAccount st.accounts (st.active.getD j "") with
  | some a => a.rateLimitedUntil
  | none => none

/-- The mutation applied to the account being dispatched: the
`else if (rateLimitedUntil)` branch clears a truthy (but no longer future)
rate-limit window, then `lastUsed` is stamped. -/
def dispatchStamp (now : Nat) (a : AccountState) : AccountState :=
  let a' := if truthyOpt a.rateLimitedUntil then { a with rateLimitedUntil := none } else a
  { a' with lastUsed := some now }

/-- `AccountManager.getNextAccount`: round-robin from `roundRobinIndex`,
skipping sessions whose `rateLimitedUntil` is truthy and in the future;
dispatching clears a truthy, no-longer-future `rateLimitedUntil`, stamps
`lastUsed` and advances the cursor. -/
def dispatch (now : Nat) (st : ManagerState) : DispatchRes × ManagerState :=
  let n := st.active.length
  if n = 0 then (.poolEmpty, st)
  else
    let start := st.roundRobinIndex
    match (List.range n).find? (fun i => !(truthyGt now (rlOfIdx st ((start + i) % n)))) with
    | none => (.noneUsable, st)
    | some i =>
      let idx := (start + i) % n
      let u := st.active.getD idx ""
      let accs := setFirst st.accounts u (dispatchStamp now)
      (.dispatched u, { accounts := accs, active := st.active, roundRobinIndex := (idx + 1) % n })

/-- Oracles for the effects of `_initializePool` on one candidate: the
token-login probe, the interactive login, the `auth_token` cookie read back
after a successful login, the proxy pick, and the current time. -/
structure InitEnv where
  tokenLoginOk : String → Bool
  passLoginOk : String → Bool
  cookieTok : String → Option String
  pick : String → Option String
  now : Nat

/-- The per-candidate body of `_initializePool`: proxy assignment, the
token-login attempt (clearing the token on failure), the password login, and
the success / failure bookkeeping.  Returns the updated account and whether
it was appended to the active pool. -/
def initStep (env : InitEnv) (a0 : AccountState) : AccountState × Bool :=
  let a1 := assignProxy env.pick a0
  let tokTried := a1.authToken ≠ ""
  let tokOk := tokTried ∧ env.tokenLoginOk a1.username
  let a2 := if tokTried ∧ ¬ env.tokenLoginOk a1.username then
      { a1 with tokenState := .failed, authToken := "" }
    else a1
  let loggedIn := tokOk ∨ env.passLoginOk a2.username
  if loggedIn then
    let tok := match env.cookieTok a2.username with
      | some v => if a2.authToken ≠ v then v else a2.authToken
      | none => a2.authToken
    ({ a2 with tokenState := .working, failedLogin := false,
               authToken := tok, lastUsed := some env.now }, true)
  else
    ({ a2 with tokenState := .failed, failedLogin := true,
               lastFailedAt := some env.now }, false)

/-- The candidate loop of `_initializePool`: walk the sorted candidate
usernames, stop at pool size 5, re-check `failedLogin` and the rate-limit
window, and run `initStep` on each remaining candidate. -/
def initLoop (env : InitEnv) :
    List String → List AccountState → List String → List AccountState × List String
  | [], accs, active => (accs, active)
  | u :: rest, accs, active =>
    if 5 ≤ active.length then (accs, active)
    else
      match findAccount accs u with
      | none => initLoop env rest accs active
      | some a =>
        if a.failedLogin || truthyGt env.now a.rateLimitedUntil then
          initLoop env rest accs active
        else
          let accs' := setFirst accs u (fun b => (initStep env b).1)
          initLoop env rest accs' (if (initStep env a).2 then active ++ [u] else active)

/-- `_initializePool`: rebuild the active pool from the store candidates with
`failedLogin = false`, sorted ascending by `lastUsed` (missing values sort
first, via `?? 0`). -/
def initPool (env : InitEnv) (st : ManagerState) : ManagerState :=
  let candidates :=
    ((st.accounts.filter (fun a => !a.failedLogin)).insertionSort
      (fun a b => a.lastUsed.getD 0 ≤ b.lastUsed.getD 0)).map (·.username)
  let res := initLoop env candidates st.accounts []
  { accounts := res.1, active := res.2, roundRobinIndex := st.roundRobinIndex }

/-- The store / pool invariant: unique usernames, a duplicate-free active
list whose members exist in the store, and no failed-login account in the
active pool. -/
def Inv (st : ManagerState) : Prop :=
  (usernames st.accounts).Nodup ∧
  st.active.Nodup ∧
  (∀ u ∈ st.active, u ∈ usernames st.accounts) ∧
  (∀ a ∈ st.accounts, a.failedLogin = true → a.username ∉ st.active)

instance (st : ManagerState) : Decidable (Inv st) := by
  unfold Inv
  infer_instance

/-! ### The rotating authenticator (`TwitterPoolAuth.fetch`, `search.ts`) -/

/-- Classification-relevant content of one upstream response (or a thrown
network error) for a given session. -/
inductive ReqOutcome where
  | ok
  | status429 (reset : Option Nat)
  | status401
  | status403
  | statusOther (code : Nat)
  | netError
deriving DecidableEq

/-- Result of a `TwitterPoolAuth.fetch` call, carrying the set of usernames
tried (in order) and the final manager state.  `exhausted` is the
`Failed to fetch … after trying …` error, `poolEmptyErr` the pool-empty
exception propagated out of `getNextAccount`. -/
inductive FetchResult where
  | success (u : String) (tried : List String) (st : ManagerState)
  | exhausted (tried : List String) (st : ManagerState)
  | poolEmptyErr (tried : List String) (st : ManagerState)
deriving DecidableEq

/-- Usernames tried during a fetch call. -/
def FetchResult.tried : FetchResult → List String
  | .success _ t _ => t
  | .exhausted t _ => t
  | .poolEmptyErr t _ => t

/-- `resetHeader ? parseInt(resetHeader, 10) * 1000 : Date.now() + 5 * 60 * 1000`. -/
def rlUntilMs (now : Nat) (reset : Option Nat) : Nat :=
  match reset with
  | some h => h * 1000
  | none => now + 5 * 60 * 1000

/-- Outcome of one iteration of the fetch retry loop. -/
inductive StepRes where
  | done (r : FetchResult)
  | next (tried : List String) (st : ManagerState)
deriving DecidableEq

/-- One iteration of the retry loop of `TwitterPoolAuth.fetch`: draw a
session; skip (or bail out) on an already-tried username; otherwise issue the
request and classify the response — 2xx returns, 429 sets the rate-limit
window and rotates, 401/403 and network errors mark the account failed and
rotate, any other status just rotates. -/
def fetchAttempt (now : Nat) (activePoolSize : Nat) (outc : String → ReqOutcome)
    (tried : List String) (st : ManagerState) : StepRes :=
  match dispatch now st with
  | (.poolEmpty, st') => .done (.poolEmptyErr tried st')
  | (.noneUsable, st') => .next tried st'
  | (.dispatched u, st') =>
    if u ∈ tried then
      if activePoolSize ≤ tried.length then .done (.exhausted tried st')
      else .next tried st'
    else
      let tried' := tried ++ [u]
      match outc u with
      | .ok => .done (.success u tried' st')
      | .status429 reset => .next tried' (updateRateLimit st' u (some (rlUntilMs now reset)))
      | .status401 => .next tried' (markFailed now st' u)
      | .status403 => .next tried' (markFailed now st' u)
      | .statusOther _ => .next tried' st'
      | .netError => .next tried' (markFailed now st' u)

/-- The bounded retry loop (`for attempt = 1..maxRetries`). -/
def poolFetchGo (now : Nat) (activePoolSize : Nat) (outc : String → ReqOutcome) :
    Nat → List String → ManagerState → FetchResult
  | 0, tried, st => .exhausted tried st
  | remaining + 1, tried, st =>
    match fetchAttempt now activePoolSize outc tried st with
    | .done r => r
    | .next tried' st' => poolFetchGo now activePoolSize outc remaining tried' st'

/-- `TwitterPoolAuth.fetch`: capture the active pool size, compute
`maxRetries = max(activePoolSize, 1)` and run the retry loop. -/
def poolFetch (now : Nat) (outc : String → ReqOutcome) (st : ManagerState) :
    FetchResult :=
  let activePoolSize := st.active.length
  poolFetchGo now activePoolSize outc (max activePoolSize 1) [] st

/-! ### The older authenticator's body-error check (`account-manager.ts`) -/

/-- Substring search over character lists (`String.prototype.includes`). -/
def hasSub (hay sub : List Char) : Bool :=
  (List.range (hay.length + 1)).any (fun i => sub.isPrefixOf (hay.drop i))

/-- The access-control error text pinned by the spec. -/
def deniedText : String := "Authorization: Denied by access control"

/-- `'errors' in json && json.errors != null && json.errors.length > 0 &&
json.errors[0].message.includes('Authorization: Denied by access control')`.
`none` models a body that is not JSON or has no `errors` array. -/
def bodyDenied (body : Option (List String)) : Bool :=
  match body with
  | none => false
  | some [] => false
  | some (m :: _) => hasSub m.data deniedText.data

/-- What the older `TwitterPoolAuth.fetch` does with one response: return the
body, or throw into the outer catch clause and recurse (retry on a newly
acquired pooled session).  Only the 429 and 403 throws reach the outer
catch: the denied-body throw is raised inside the inner
`try { clonedResponse.json() ... } catch (e) { return response; }`, whose
catch swallows it and returns the original response. -/
inductive OldAction where
  | returnBody
  | retryAnother
deriving DecidableEq

/-- Response handling of the older `TwitterPoolAuth.fetch`
(`account-manager.ts`): 429 stamps `rateLimitedUntil` and retries, 403
retries without touching the account, a parseable JSON body whose first
error message contains the access-control text sets `tokenState := failed`
but the throw that follows is caught by the inner JSON catch clause, which
returns the original response — so the body is returned anyway; everything
else is returned to the caller. -/
def oldFetchStep (a : AccountState) (status : Nat) (reset : Option Nat)
    (body : Option (List String)) : OldAction × AccountState :=
  if status = 429 then
    (.retryAnother, { a with rateLimitedUntil := some (reset.getD 0 * 1000) })
  else if status = 403 then
    (.retryAnother, a)
  else if bodyDenied body then
    (.returnBody, { a with tokenState := .failed })
  else
    (.returnBody, a)

/-! ### `getAllTweetsEver` (`search.ts`) -/

/-- `if (!lowest || BigInt(result.id) < lowest) lowest = BigInt(result.id)`:
the running minimum of the new tweet ids of a pass (note that a `0n` value is
falsy and is overwritten unconditionally). -/
def updLowest (low : Option Nat) (r : Nat) : Option Nat :=
  match low with
  | none => some r
  | some l => if l = 0 ∨ r < l then some r else some l

/-- One search pass of `getAllTweetsEver`: walk the results, skip ids already
seen, track the minimum new id, record the new ids as the yielded tweets.
Returns (yielded ids, updated seen set, lowest new id). -/
def passGo : List Nat → List Nat → Option Nat → List Nat × List Nat × Option Nat
  | [], seen, low => ([], seen, low)
  | r :: rest, seen, low =>
    if r ∈ seen then passGo rest seen low
    else
      let res := passGo rest (seen ++ [r]) (updLowest low r)
      (r :: res.1, res.2.1, res.2.2)

/-- The outer loop of `getAllTweetsEver`, instrumented with the trace of
passes: each entry is the `max_id` bound used for that pass (`none` for the
first pass, where `max_id` is the empty string) together with the ids the
pass yielded.  The boolean is true when the loop broke because a pass
yielded nothing new (rather than the fuel running out). -/
def allTweetsGo (search : Option Nat → List Nat) :
    Nat → List Nat → Option Nat → List (Option Nat × List Nat) × Bool
  | 0, _, _ => ([], false)
  | fuel + 1, seen, maxId =>
    let p := passGo (search maxId) seen none
    match p.2.2 with
    | none => ([(maxId, p.1)], true)
    | some l =>
      let res := allTweetsGo search fuel p.2.1 (some l)
      ((maxId, p.1) :: res.1, res.2)

/-- `getAllTweetsEver`, starting with an empty seen-set and no `max_id`. -/
def allTweetsEver (search : Option Nat → List Nat) (fuel : Nat) :
    List (Option Nat × List Nat) × Bool :=
  allTweetsGo search fuel [] none

/-- All tweet ids yielded across the passes, in yield order. -/
def yieldsOf (passes : List (Option Nat × List Nat)) : List Nat :=
  (passes.map (·.2)).flatten

/-! ### `parseAccountList` (`account-manager.ts` / `search.ts`)

The format string is turned into a regular expression by escaping the regex
metacharacters, replacing the first occurrence of each field name with a
named capture group `(?<name>.*)` and every `ANY` with `.*`.  The generated
patterns are flat sequences of literals, `.*` groups and bare `.*`, so the
regex engine is modelled by a backtracking matcher for exactly that shape
(leftmost match, greedy star, `.` not matching line terminators). -/

/-- The characters escaped by `format.replace(/[.*+?^${}()|[\]\\]/g, '\\$&')`. -/
def escSpecials : List Char :=
  ['.', '*', '+', '?', '^', '$', Char.ofNat 123, Char.ofNat 125,
   '(', ')', '|', '[', ']', '\\']

/-- Escape every regex metacharacter with a backslash. -/
def escapeRegex (s : List Char) : List Char :=
  (s.map (fun c => if c ∈ escSpecials then ['\\', c] else [c])).flatten

/-- `String.prototype.replace` with a plain (non-empty) search string:
replace the first occurrence only. -/
def replaceFirstCh (s pat rep : List Char) : List Char :=
  match s with
  | [] => []
  | c :: cs =>
    if pat.isPrefixOf (c :: cs) then rep ++ (c :: cs).drop pat.length
    else c :: replaceFirstCh cs pat rep

/-- `String.prototype.replaceAll` with a plain non-empty search string
(fuel-indexed; the fuel is the input length, one character is consumed per
step). -/
def replaceAllGo (pat rep : List Char) : Nat → List Char → List Char
  | 0, s => s
  | fuel + 1, s =>
    match s with
    | [] => []
    | c :: cs =>
      if pat.isPrefixOf (c :: cs) ∧ pat ≠ [] then
        rep ++ replaceAllGo pat rep fuel ((c :: cs).drop pat.length)
      else c :: replaceAllGo pat rep fuel cs

/-- The regex source built by `parseAccountList` from a format string:
escape, then substitute the six field names (in source order) and `ANY`. -/
def buildRegex (format : String) : List Char :=
  let s := escapeRegex format.data
  let s := replaceFirstCh s "username".data "(?<username>.*)".data
  let s := replaceFirstCh s "password".data "(?<password>.*)".data
  let s := replaceFirstCh s "email".data "(?<email>.*)".data
  let s := replaceFirstCh s "emailPassword".data "(?<emailPassword>.*)".data
  let s := replaceFirstCh s "authToken".data "(?<authToken>.*)".data
  let s := replaceFirstCh s "twoFactorSecret".data "(?<twoFactorSecret>.*)".data
  replaceAllGo "ANY".data ".*".data s.length s

/-- Tokens of the flat regexes generated from format strings: a literal
character, a named group `(?<name>.*)`, or a bare `.*`. -/
inductive Tok where
  | lit (c : Char)
  | grp (name : String)
  | anyStar
deriving DecidableEq

/-- Scan a generated regex source into its token list (fuel-indexed). -/
def toksGo : Nat → List Char → List Tok
  | 0, _ => []
  | fuel + 1, s =>
    match s with
    | [] => []
    | '(' :: '?' :: '<' :: rest =>
      let nm := rest.takeWhile (fun c => c ≠ '>')
      match rest.drop (nm.length + 1) with
      | '.' :: '*' :: ')' :: rest3 => .grp nm.asString :: toksGo fuel rest3
      | _ => []
    | '\\' :: c :: rest => .lit c :: toksGo fuel rest
    | '.' :: '*' :: rest => .anyStar :: toksGo fuel rest
    | c :: rest => .lit c :: toksGo fuel rest

/-- Token list of a generated regex source. -/
def toksOfPattern (p : List Char) : List Tok :=
  toksGo p.length p

/-- Whether `.` matches a character: anything but a line terminator. -/
def dotChar (c : Char) : Bool :=
  !(c == '\n' || c == '\r' || c.toNat = 0x2028 || c.toNat = 0x2029)

/-- Backtracking matcher for a token list against a suffix of the subject:
a greedy star tries the longest dot-matching prefix first, and a match may
leave a trailing remainder (JavaScript `match` is unanchored).  On success,
returns the named captures in pattern order. -/
def matchCore : List Tok → List Char → Option (List (String × String))
  | [], _ => some []
  | .lit c :: ts, s =>
    match s with
    | [] => none
    | x :: xs => if x = c then matchCore ts xs else none
  | .grp n :: ts, s =>
    let m := (s.takeWhile dotChar).length
    ((List.range (m + 1)).reverse).findSome? (fun k =>
      (matchCore ts (s.drop k)).map (fun gs => (n, (s.take k).asString) :: gs))
  | .anyStar :: ts, s =>
    let m := (s.takeWhile dotChar).length
    ((List.range (m + 1)).reverse).findSome? (fun k => matchCore ts (s.drop k))

/-- `line.match(exp)`: try every start position, leftmost first. -/
def matchFrom (toks : List Tok) (s : List Char) : Option (List (String × String)) :=
  (List.range (s.length + 1)).findSome? (fun i => matchCore toks (s.drop i))

/-- `csvish.split(/\r?\n/g)` (accumulator holds the current line reversed):
split at `\n` or `\r\n`; a lone `\r` stays in its line. -/
def splitLinesGo : List Char → List Char → List (List Char)
  | [], acc => [acc.reverse]
  | c :: rest, acc =>
    if c = '\n' then acc.reverse :: splitLinesGo rest []
    else if c = '\r' then
      match rest with
      | '\n' :: rest2 => acc.reverse :: splitLinesGo rest2 []
      | rest2 => splitLinesGo rest2 (c :: acc)
    else splitLinesGo rest (c :: acc)

/-- Split a character list into lines at `\r?\n`. -/
def splitLines (s : List Char) : List (List Char) :=
  splitLinesGo s []

/-- The record `parseAccountList` builds from a line's named captures; a
field name that is not a group of the format's regex stays `undefined`. -/
structure ParsedAccount where
  username : Option String
  password : Option String
  email : Option String
  emailPassword : Option String
  authToken : Option String
  twoFactorSecret : Option String
deriving DecidableEq

/-- Look up one named capture (`match.groups.name`). -/
def groupVal (gs : List (String × String)) (nm : String) : Option String :=
  (gs.find? (fun p => p.1 == nm)).map (·.2)

/-- Build the account record from the captures of one line. -/
def mkParsed (gs : List (String × String)) : ParsedAccount :=
  { username := groupVal gs "username", password := groupVal gs "password",
    email := groupVal gs "email", emailPassword := groupVal gs "emailPassword",
    authToken := groupVal gs "authToken", twoFactorSecret := groupVal gs "twoFactorSecret" }

/-- The error thrown by `parseAccountList`, which names a 1-based line
number. -/
structure ParseError where
  line : Nat
deriving DecidableEq

instance {ε α : Type} [DecidableEq ε] [DecidableEq α] : DecidableEq (Except ε α) :=
  fun x y =>
    match x, y with
    | .ok a, .ok b =>
      if h : a = b then .isTrue (by rw [h]) else .isFalse (by intro hc; cases hc; exact h rfl)
    | .error e, .error f =>
      if h : e = f then .isTrue (by rw [h]) else .isFalse (by intro hc; cases hc; exact h rfl)
    | .ok _, .error _ => .isFalse (by intro hc; cases hc)
    | .error _, .ok _ => .isFalse (by intro hc; cases hc)

/-- The `.map((line, index) => …)` body: parse each line in order, throwing
(as the `Except` error) at the first line the regex does not match. -/
def parseLinesGo (toks : List Tok) : List (List Char) → Nat → Except ParseError (List ParsedAccount)
  | [], _ => .ok []
  | l :: ls, idx =>
    match matchFrom toks l with
    | none => .error ⟨idx + 1⟩
    | some gs =>
      match parseLinesGo toks ls (idx + 1) with
      | .error e => .error e
      | .ok rest => .ok (mkParsed gs :: rest)

/-- The exported default format string. -/
def defaultAccountListFormat : String :=
  "username:password:email:emailPassword:authToken:twoFactorSecret"

/-- `parseAccountList`: build the regex from the format, split the input
into lines, drop empty lines, and parse each remaining line. -/
def parseAccountList (csvish : String) (format : String) :
    Except ParseError (List ParsedAccount) :=
  let toks := toksOfPattern (buildRegex format)
  let lines := (splitLines csvish.data).filter (fun l => !l.isEmpty)
  parseLinesGo toks lines 0

/-- Join fields with `:` separators. -/
def joinColon : List (List Char) → List Char
  | [] => []
  | [f] => f
  | f :: fs => f ++ ':' :: joinColon fs

/-- Join lines with `\n` separators. -/
def joinLines : List (List Char) → List Char
  | [] => []
  | [l] => l
  | l :: ls => l ++ '\n' :: joinLines ls

/-- The line a record serializes to under the default `:`-separated format. -/
def lineOfAccount (r : AccountInfo) : List Char :=
  joinColon [r.username.data, r.password.data, r.email.data,
             r.emailPassword.data, r.authToken.data, r.twoFactorSecret.data]

/-- Modelled from the spec: the credential-store serializer of the
round-trip law `parse(serialize(format, records)) = records`.  The
repository only contains the parser, so serialization is modelled as the
spec describes it: one record per line, fields joined with the `:`
separators of the default format. -/
def serializeAccounts (records : List AccountInfo) : String :=
  (joinLines (records.map lineOfAccount)).asString

/-- The record the parser is expected to reproduce for an imported record
(every capture group present). -/
def parsedOfInfo (r : AccountInfo) : ParsedAccount :=
  { username := some r.username, password := some r.password,
    email := some r.email, emailPassword := some r.emailPassword,
    authToken := some r.authToken, twoFactorSecret := some r.twoFactorSecret }

/-- A character that survives the round trip: not a field separator and not
a character the regex `.` refuses (line terminators). -/
def plainChar (c : Char) : Prop :=
  c ≠ ':' ∧ dotChar c = true

instance (c : Char) : Decidable (plainChar c) := by
  unfold plainChar
  infer_instance

/-- All six field values of a record consist of plain characters. -/
def plainAccount (r : AccountInfo) : Prop :=
  (∀ c ∈ r.username.data, plainChar c) ∧ (∀ c ∈ r.password.data, plainChar c) ∧
  (∀ c ∈ r.email.data, plainChar c) ∧ (∀ c ∈ r.emailPassword.data, plainChar c) ∧
  (∀ c ∈ r.authToken.data, plainChar c) ∧ (∀ c ∈ r.twoFactorSecret.data, plainChar c)

instance (r : AccountInfo) : Decidable (plainAccount r) := by
  unfold plainAccount
  infer_instance

/-! ### The two-factor challenge handler (`auth-user.ts`) -/

/-- Result of one `executeFlowTask` call during the 2FA challenge: success,
an API-error result (`result.status === 'error'`), or a thrown exception. -/
inductive FlowRes where
  | success
  | apiError (msg : String)
  | exception (msg : String)
deriving DecidableEq

/-- The error message text that selects the explicit retry branch. -/
def invalidCodeText : String := "verification code is invalid"

/-- `String.prototype.toLowerCase` (ASCII model). -/
def toLowerStr (s : String) : String :=
  (s.data.map Char.toLower).asString

/-- Final state of `handleTwoFactorAuthChallenge`: success at some attempt,
or the last error re-thrown after the loop. -/
inductive TwoFAOut where
  | okAt (attempt : Nat)
  | thrown (lastErr : Option String)
deriving DecidableEq

/-- The attempt loop of `handleTwoFactorAuthChallenge`.  An API error whose
lowercased message contains the invalid-code text delays
`2000 * attempt` ms and retries; any other API error is re-thrown — but the
`throw` sits inside the same `try` block, so the `catch` below it catches
the error, delays `2000 * attempt` ms and retries as well; a thrown
exception takes the `catch` path directly.  Returns the outcome and the
list of delays awaited. -/
def twoFAGo (res : Nat → FlowRes) : Nat → Nat → Option String → TwoFAOut × List Nat
  | 0, _, lastErr => (.thrown lastErr, [])
  | remaining + 1, attempt, _ =>
    match res attempt with
    | .success => (.okAt attempt, [])
    | .apiError m =>
      if hasSub (toLowerStr m).data invalidCodeText.data then
        let r := twoFAGo res remaining (attempt + 1) (some m)
        (r.1, 2000 * attempt :: r.2)
      else
        let r := twoFAGo res remaining (attempt + 1) (some m)
        (r.1, 2000 * attempt :: r.2)
    | .exception m =>
      let r := twoFAGo res remaining (attempt + 1) (some m)
      (r.1, 2000 * attempt :: r.2)

/-- `handleTwoFactorAuthChallenge`: `maxAttempts = 3`, attempts numbered
from 1, no error recorded before the first attempt. -/
def handleTwoFactorAuthChallenge (res : Nat → FlowRes) : TwoFAOut × List Nat :=
  twoFAGo res 3 1 none

/-- Modelled from the spec: the number of digits of the TOTP code generated
by `new OTPAuth.TOTP({ secret })`; the OTPAuth library is not part of the
repository and its default is a standard 6-digit code. -/
def totpDigits : Nat := 6

/-- Modelled from the spec: the time step, in seconds, of the TOTP code
generated by `new OTPAuth.TOTP({ secret })`; the OTPAuth library is not part
of the repository and its default is a 30-second step. -/
def totpPeriodSeconds : Nat := 30

/-! ### Helper lemmas on the store operations -/

theorem usernames_setFirst (l : List AccountState) (u : String)
    (f : AccountState → AccountState) (hf : ∀ a, (f a).username = a.username) :
    usernames (setFirst l u f) = usernames l := by
  induction l with
  | nil => rfl
  | cons a rest ih =>
    by_cases h : a.username == u
    · simp [setFirst, h, usernames, hf]
    · simp only [setFirst, h, Bool.false_eq_true, if_false]
      simp [usernames] at ih ⊢
      exact ih

theorem findAccount_setFirst (l : List AccountState) (u : String)
    (f : AccountState → AccountState) (hf : ∀ a, (f a).username = a.username) :
    findAccount (setFirst l u f) u = (findAccount l u).map f := by
  induction l with
  | nil => rfl
  | cons a rest ih =>
    by_cases h : a.username == u
    · have hfa : (f a).username == u := by
        rw [hf a]; exact h
      simp [setFirst, findAccount, h, hfa, List.find?]
    · have h' : (a.username == u) = false := by simpa using h
      simp only [setFirst, h, Bool.false_eq_true, if_false]
      simp only [findAccount, List.find?, h'] at ih ⊢
      exact ih

theorem findAccount_setFirst_ne (l : List AccountState) (u v : String)
    (f : AccountState → AccountState) (hf : ∀ a, (f a).username = a.username)
    (hne : v ≠ u) :
    findAccount (setFirst l u f) v = findAccount l v := by
  induction l with
  | nil => rfl
  | cons a rest ih =>
    by_cases h : a.username == u
    · have hau : a.username = u := beq_iff_eq.mp h
      have h1 : ((f a).username == v) = false := by
        rw [hf a, hau]
        exact beq_eq_false_iff_ne.mpr (fun hc => hne hc.symm)
      have h2 : (a.username == v) = false := by
        rw [hau]
        exact beq_eq_false_iff_ne.mpr (fun hc => hne hc.symm)
      simp [setFirst, findAccount, h, h1, h2, List.find?]
    · simp only [setFirst, h, Bool.false_eq_true, if_false]
      simp only [findAccount, List.find?] at ih ⊢
      by_cases hv : a.username == v
      · simp [hv]
      · simp [hv]
        exact ih

theorem mem_setFirst (l : List AccountState) (u : String)
    (f : AccountState → AccountState) (b : AccountState)
    (hb : b ∈ setFirst l u f) :
    b ∈ l ∨ ∃ a ∈ l, a.username = u ∧ b = f a := by
  induction l with
  | nil => cases hb
  | cons a rest ih =>
    by_cases h : a.username == u
    · simp only [setFirst, h, if_true] at hb
      rcases List.mem_cons.mp hb with hb | hb
      · exact Or.inr ⟨a, List.mem_cons_self a rest, beq_iff_eq.mp h, hb⟩
      · exact Or.inl (List.mem_cons_of_mem a hb)
    · simp only [setFirst, h, Bool.false_eq_true, if_false] at hb
      rcases List.mem_cons.mp hb with hb | hb
      · exact Or.inl (hb ▸ List.mem_cons_self a rest)
      · rcases ih hb with hh | ⟨a', ha', hu, hfa⟩
        · exact Or.inl (List.mem_cons_of_mem a hh)
        · exact Or.inr ⟨a', List.mem_cons_of_mem a ha', hu, hfa⟩

theorem removeFirst_sublist (l : List String) (u : String) :
    (removeFirst l u).Sublist l := by
  induction l with
  | nil => simp [removeFirst]
  | cons x xs ih =>
    by_cases h : x == u
    · simp only [removeFirst, h, if_true]
      exact (List.sublist_cons_self x xs)
    · simp only [removeFirst, h, Bool.false_eq_true, if_false]
      exact List.Sublist.cons₂ x ih

theorem mem_removeFirst (l : List String) (u v : String)
    (hv : v ∈ removeFirst l u) : v ∈ l :=
  (removeFirst_sublist l u).mem hv

theorem not_mem_removeFirst (l : List String) (u : String) (hl : l.Nodup) :
    u ∉ removeFirst l u := by
  induction l with
  | nil => simp [removeFirst]
  | cons x xs ih =>
    rcases List.nodup_cons.mp hl with ⟨hx, hxs⟩
    by_cases h : x == u
    · simp only [removeFirst, h, if_true]
      exact (beq_iff_eq.mp h) ▸ hx
    · simp only [removeFirst, h, Bool.false_eq_true, if_false]
      intro hc
      rcases List.mem_cons.mp hc with hc | hc
      · exact absurd (beq_iff_eq.mpr hc.symm) (by simpa using h)
      · exact ih hxs hc

theorem findAccount_some (l : List AccountState) (u : String) (a : AccountState)
    (h : findAccount l u = some a) : a ∈ l ∧ a.username = u := by
  have h' : l.find? (fun a => a.username == u) = some a := h
  have hp := List.find?_some h'
  exact ⟨List.mem_of_find?_eq_some h', beq_iff_eq.mp hp⟩

theorem findAccount_isSome (l : List AccountState) (u : String) (a : AccountState)
    (ha : a ∈ l) (hu : a.username = u) : (findAccount l u).isSome := by
  simp only [findAccount, List.find?_isSome]
  exact ⟨a, ha, beq_iff_eq.mpr hu⟩

theorem findAccount_eq_of_nodup (l : List AccountState) (u : String) (a : AccountState)
    (hl : (usernames l).Nodup) (ha : a ∈ l) (hu : a.username = u) :
    findAccount l u = some a := by
  induction l with
  | nil => cases ha
  | cons b rest ih =>
    simp only [usernames, List.map_cons, List.nodup_cons] at hl
    rcases List.mem_cons.mp ha with ha | ha
    · subst ha
      simp [findAccount, List.find?, beq_iff_eq.mpr hu]
    · have hbu : (b.username == u) = false := by
        refine beq_eq_false_iff_ne.mpr (fun hc => ?_)
        exact hl.1 (hc ▸ (hu ▸ List.mem_map_of_mem (·.username) ha))
      simp only [findAccount, List.find?, hbu]
      exact ih hl.2 ha

theorem nodup_snoc {α : Type} {l : List α} {u : α} (h : l.Nodup) (hu : u ∉ l) :
    (l ++ [u]).Nodup := by
  rw [List.nodup_append]
  exact ⟨h, List.nodup_singleton u, by
    intro x hx hxu
    rcases List.mem_singleton.mp hxu with rfl
    exact hu hx⟩

/-! ### C1: the fetch loop tries at most `max(activePoolSize, 1)` sessions -/

theorem fetchAttempt_shape (now n : Nat) (outc : String → ReqOutcome)
    (tried : List String) (st : ManagerState) :
    (∃ st', fetchAttempt now n outc tried st = .done (.poolEmptyErr tried st')) ∨
    (∃ st', fetchAttempt now n outc tried st = .done (.exhausted tried st')) ∨
    (∃ u st', fetchAttempt now n outc tried st = .done (.success u (tried ++ [u]) st') ∧
      u ∉ tried ∧ outc u = .ok) ∨
    (∃ st', fetchAttempt now n outc tried st = .next tried st') ∨
    (∃ u st', fetchAttempt now n outc tried st = .next (tried ++ [u]) st' ∧ u ∉ tried) := by
  unfold fetchAttempt
  rcases hd : dispatch now st with ⟨res, st'⟩
  cases res with
  | poolEmpty => exact Or.inl ⟨st', by simp [hd]⟩
  | noneUsable => exact Or.inr (Or.inr (Or.inr (Or.inl ⟨st', by simp [hd]⟩)))
  | dispatched u =>
    by_cases hu : u ∈ tried
    · by_cases hlen : n ≤ tried.length
      · exact Or.inr (Or.inl ⟨st', by simp [hd, hu, hlen]⟩)
      · exact Or.inr (Or.inr (Or.inr (Or.inl ⟨st', by simp [hd, hu, hlen]⟩)))
    · cases ho : outc u with
      | ok =>
        exact Or.inr (Or.inr (Or.inl ⟨u, st', by simp [hd, hu, ho], hu, ho⟩))
      | status429 reset =>
        exact Or.inr (Or.inr (Or.inr (Or.inr
          ⟨u, updateRateLimit st' u (some (rlUntilMs now reset)), by simp [hd, hu, ho], hu⟩)))
      | status401 =>
        exact Or.inr (Or.inr (Or.inr (Or.inr
          ⟨u, markFailed now st' u, by simp [hd, hu, ho], hu⟩)))
      | status403 =>
        exact Or.inr (Or.inr (Or.inr (Or.inr
          ⟨u, markFailed now st' u, by simp [hd, hu, ho], hu⟩)))
      | statusOther code =>
        exact Or.inr (Or.inr (Or.inr (Or.inr ⟨u, st', by simp [hd, hu, ho], hu⟩)))
      | netError =>
        exact Or.inr (Or.inr (Or.inr (Or.inr
          ⟨u, markFailed now st' u, by simp [hd, hu, ho], hu⟩)))

theorem poolFetchGo_props (now n : Nat) (outc : String → ReqOutcome) :
    ∀ (rem : Nat) (tried : List String) (st : ManagerState), tried.Nodup →
      (poolFetchGo now n outc rem tried st).tried.Nodup ∧
      (poolFetchGo now n outc rem tried st).tried.length ≤ tried.length + rem ∧
      ((∀ u, outc u ≠ .ok) →
        ∀ u t s, poolFetchGo now n outc rem tried st ≠ .success u t s) := by
  intro rem
  induction rem with
  | zero =>
    intro tried st h
    refine ⟨h, by simp [poolFetchGo, FetchResult.tried], ?_⟩
    intro _ u t s hc
    simp [poolFetchGo] at hc
  | succ rem ih =>
    intro tried st h
    rcases fetchAttempt_shape now n outc tried st with
      ⟨st', heq⟩ | ⟨st', heq⟩ | ⟨u, st', heq, hu, hok⟩ | ⟨st', heq⟩ | ⟨u, st', heq, hu⟩
    · refine ⟨?_, ?_, ?_⟩
      · simpa [poolFetchGo, heq, FetchResult.tried] using h
      · simp [poolFetchGo, heq, FetchResult.tried]
      · intro _ u t s
        simp [poolFetchGo, heq]
    · refine ⟨?_, ?_, ?_⟩
      · simpa [poolFetchGo, heq, FetchResult.tried] using h
      · simp [poolFetchGo, heq, FetchResult.tried]
      · intro _ u t s
        simp [poolFetchGo, heq]
    · refine ⟨?_, ?_, ?_⟩
      · simpa [poolFetchGo, heq, FetchResult.tried] using nodup_snoc h hu
      · simp only [poolFetchGo, heq, FetchResult.tried, List.length_append,
          List.length_singleton]
        omega
      · intro hno u' t s
        exact absurd hok (hno u)
    · have hi := ih tried st' h
      refine ⟨?_, ?_, ?_⟩
      · simpa [poolFetchGo, heq] using hi.1
      · have h2 := hi.2.1
        simp only [poolFetchGo, heq]
        omega
      · intro hno u t s
        simp only [poolFetchGo, heq]
        exact hi.2.2 hno u t s
    · have hi := ih (tried ++ [u]) st' (nodup_snoc h hu)
      refine ⟨?_, ?_, ?_⟩
      · simpa [poolFetchGo, heq] using hi.1
      · have h2 := hi.2.1
        simp only [List.length_append, List.length_singleton] at h2
        simp only [poolFetchGo, heq]
        omega
      · intro hno u' t s
        simp only [poolFetchGo, heq]
        exact hi.2.2 hno u' t s

/-- C1: a call to the rotating authenticator's fetch tries at most
`max(activePoolSize, 1)` distinct sessions, where `activePoolSize` is the
size of the active pool captured at the start of the call; the usernames it
tries are pairwise distinct, and when no session's request ever succeeds the
call cannot return a success — once the attempt budget (and in particular
every active account) has been consumed, the loop stops and the call fails. -/
theorem c1_fetch_distinct_sessions_bound (now : Nat) (outc : String → ReqOutcome)
    (st : ManagerState) :
    (poolFetch now outc st).tried.Nodup ∧
    (poolFetch now outc st).tried.length ≤ max st.active.length 1 ∧
    ((∀ u, outc u ≠ .ok) →
      ∀ u t s, poolFetch now outc st ≠ .success u t s) := by
  have h := poolFetchGo_props now st.active.length outc (max st.active.length 1) [] st
    (List.nodup_nil)
  refine ⟨h.1, ?_, h.2.2⟩
  have := h.2.1
  simpa using this

/-- Witness for C1 at a concrete pool of two accounts both answering 500. -/
theorem c1_fetch_distinct_sessions_bound_witness :
    (∀ u, (fun _ : String => ReqOutcome.statusOther 500) u ≠ .ok) ∧
    (∀ u t s, poolFetch 10 (fun _ => ReqOutcome.statusOther 500)
      { accounts := [{ mkState ⟨"a", "p", "e", "ep", "t", "s"⟩ with tokenState := .working },
                     { mkState ⟨"b", "p", "e", "ep", "t", "s"⟩ with tokenState := .working }],
        active := ["a", "b"], roundRobinIndex := 0 } ≠ .success u t s) := by
  refine ⟨by intro u; simp, ?_⟩
  exact (c1_fetch_distinct_sessions_bound 10 (fun _ => ReqOutcome.statusOther 500)
    { accounts := [{ mkState ⟨"a", "p", "e", "ep", "t", "s"⟩ with tokenState := .working },
                   { mkState ⟨"b", "p", "e", "ep", "t", "s"⟩ with tokenState := .working }],
      active := ["a", "b"], roundRobinIndex := 0 }).2.2 (by intro u; simp)

/-! ### C3: dispatch invariants -/

theorem dispatchStamp_username (now : Nat) (a : AccountState) :
    (dispatchStamp now a).username = a.username := by
  unfold dispatchStamp
  split <;> rfl

theorem dispatchStamp_lastUsed (now : Nat) (a : AccountState) :
    (dispatchStamp now a).lastUsed = some now := by
  unfold dispatchStamp
  split <;> rfl

theorem dispatchStamp_failedLogin (now : Nat) (a : AccountState) :
    (dispatchStamp now a).failedLogin = a.failedLogin := by
  unfold dispatchStamp
  split <;> rfl

theorem dispatchStamp_rl (now : Nat) (a : AccountState)
    (h : truthyGt now a.rateLimitedUntil = false) :
    (dispatchStamp now a).rateLimitedUntil = none ∨
    ∃ t, (dispatchStamp now a).rateLimitedUntil = some t ∧ t ≤ now := by
  unfold dispatchStamp
  rcases hrl : a.rateLimitedUntil with _ | t
  · left
    simp [truthyOpt, hrl]
  · by_cases h0 : t = 0
    · right
      subst h0
      refine ⟨0, ?_, Nat.zero_le now⟩
      simp [truthyOpt, hrl]
    · left
      simp [truthyOpt, h0]

theorem dispatchStamp_clears (now : Nat) (a : AccountState) (t : Nat)
    (ht : a.rateLimitedUntil = some t) (h0 : t ≠ 0) :
    (dispatchStamp now a).rateLimitedUntil = none := by
  unfold dispatchStamp
  have : truthyOpt a.rateLimitedUntil = true := by simp [truthyOpt, ht, h0]
  simp [this]

theorem mod_cycle (start j n : Nat) (hn : 0 < n) (hj : j < n) :
    (start + (j + n - start % n) % n) % n = j := by
  have hs : start % n < n := Nat.mod_lt _ hn
  have hx : (j + n - start % n) % n < n := Nat.mod_lt _ hn
  calc (start + (j + n - start % n) % n) % n
      = (start % n + ((j + n - start % n) % n) % n) % n := by rw [Nat.add_mod]
    _ = (start % n + (j + n - start % n) % n) % n := by rw [Nat.mod_mod_of_dvd _ dvd_rfl]
    _ = ((start % n) % n + (j + n - start % n) % n) % n := by rw [Nat.mod_mod_of_dvd _ dvd_rfl]
    _ = (start % n + (j + n - start % n)) % n := by rw [← Nat.add_mod]
    _ = (j + n) % n := by
        congr 1
        omega
    _ = j := by
        rw [Nat.add_mod_right, Nat.mod_eq_of_lt hj]

theorem dispatch_dispatched (now : Nat) (st : ManagerState) (u : String)
    (st' : ManagerState) (h : dispatch now st = (.dispatched u, st')) :
    ∃ idx < st.active.length,
      u = st.active.getD idx "" ∧
      truthyGt now (rlOfIdx st idx) = false ∧
      st'.accounts = setFirst st.accounts u (dispatchStamp now) ∧
      st'.active = st.active := by
  unfold dispatch at h
  by_cases hn : st.active.length = 0
  · simp [hn] at h
  · simp only [hn, if_false] at h
    rcases hf : (List.range st.active.length).find?
        (fun i => !(truthyGt now (rlOfIdx st ((st.roundRobinIndex + i) % st.active.length)))) with
      _ | i
    · rw [hf] at h
      cases h
    · rw [hf] at h
      have hi : i < st.active.length :=
        List.mem_range.mp (List.mem_of_find?_eq_some hf)
      have hp := List.find?_some hf
      simp only [Bool.not_eq_true'] at hp
      cases h
      refine ⟨(st.roundRobinIndex + i) % st.active.length,
        Nat.mod_lt _ (Nat.pos_of_ne_zero hn), rfl, hp, rfl, rfl⟩

theorem dispatch_noneUsable (now : Nat) (st : ManagerState) (st' : ManagerState)
    (h : dispatch now st = (.noneUsable, st')) :
    ∀ i < st.active.length,
      truthyGt now (rlOfIdx st ((st.roundRobinIndex + i) % st.active.length)) = true := by
  unfold dispatch at h
  by_cases hn : st.active.length = 0
  · intro i hi
    omega
  · simp only [hn, if_false] at h
    rcases hf : (List.range st.active.length).find?
        (fun i => !(truthyGt now (rlOfIdx st ((st.roundRobinIndex + i) % st.active.length)))) with
      _ | i
    · intro i hi
      have := List.find?_eq_none.mp hf i (List.mem_range.mpr hi)
      simpa using this
    · rw [hf] at h
      cases h

/-- C3: every session returned by dispatch has, at the moment of dispatch, a
`rateLimitedUntil` that is unset or ≤ now — a truthy expired window is
cleared on examination — and its `lastUsed` is stamped with the dispatch
time; `getNextAccount` returns `null` only when one full round-robin
revolution over the active pool found every session rate-limited into the
future. -/
theorem c3_dispatch_rate_limit_invariant (now : Nat) (st : ManagerState)
    (hInv : Inv st) :
    (∀ u st', dispatch now st = (.dispatched u, st') →
      ∃ a, findAccount st'.accounts u = some a ∧
        (a.rateLimitedUntil = none ∨ ∃ t, a.rateLimitedUntil = some t ∧ t ≤ now) ∧
        a.lastUsed = some now ∧
        (∀ a0 t, findAccount st.accounts u = some a0 → a0.rateLimitedUntil = some t →
          t ≠ 0 → a.rateLimitedUntil = none)) ∧
    (∀ st', dispatch now st = (.noneUsable, st') →
      ∀ u ∈ st.active, ∃ a, findAccount st.accounts u = some a ∧
        truthyGt now a.rateLimitedUntil = true) := by
  obtain ⟨hndb, hnda, hsub, hfail⟩ := hInv
  constructor
  · intro u st' h
    obtain ⟨idx, hidx, hu, hrl, hacc, -⟩ := dispatch_dispatched now st u st' h
    have humem : u ∈ st.active := by
      rw [hu]
      rw [List.getD_eq_getElem?_getD, List.getElem?_eq_getElem hidx]
      exact List.getElem_mem hidx
    obtain ⟨a0, ha0mem, ha0u⟩ := List.mem_map.mp (hsub u humem)
    have hfind : findAccount st.accounts u = some a0 :=
      findAccount_eq_of_nodup _ _ _ hndb ha0mem ha0u
    have hrl0 : rlOfIdx st idx = a0.rateLimitedUntil := by
      unfold rlOfIdx
      rw [← hu, hfind]
    refine ⟨dispatchStamp now a0, ?_, ?_, dispatchStamp_lastUsed now a0, ?_⟩
    · rw [hacc, findAccount_setFirst _ _ _ (dispatchStamp_username now), hfind]
      rfl
    · exact dispatchStamp_rl now a0 (by rw [← hrl0]; exact hrl)
    · intro a0' t hfind' hrt h0
      rw [hfind] at hfind'
      cases hfind'
      exact dispatchStamp_clears now a0 t hrt h0
  · intro st' h u humem
    obtain ⟨a0, ha0mem, ha0u⟩ := List.mem_map.mp (hsub u humem)
    have hfind : findAccount st.accounts u = some a0 :=
      findAccount_eq_of_nodup _ _ _ hndb ha0mem ha0u
    obtain ⟨j, hj, hgj⟩ := List.getElem_of_mem humem
    have hn : 0 < st.active.length := Nat.pos_of_ne_zero (by
      intro hc
      rw [hc] at hj
      omega)
    have hall := dispatch_noneUsable now st st' h
    have hi := hall ((j + st.active.length - st.roundRobinIndex % st.active.length) %
        st.active.length) (Nat.mod_lt _ hn)
    rw [mod_cycle _ _ _ hn hj] at hi
    have hrlj : rlOfIdx st j = a0.rateLimitedUntil := by
      unfold rlOfIdx
      have : st.active.getD j "" = u := by
        rw [List.getD_eq_getElem?_getD, List.getElem?_eq_getElem hj, hgj]
        rfl
      rw [this, hfind]
    rw [hrlj] at hi
    exact ⟨a0, hfind, hi⟩

/-- Witness for C3 at a two-account pool, one account with an expired
rate-limit window. -/
theorem c3_dispatch_rate_limit_invariant_witness :
    Inv { accounts := [{ mkState ⟨"a", "p", "e", "ep", "t", "s"⟩ with rateLimitedUntil := some 5 },
                       mkState ⟨"b", "p", "e", "ep", "t", "s"⟩],
          active := ["a", "b"], roundRobinIndex := 0 } ∧
    (∀ u st', dispatch 10
        { accounts := [{ mkState ⟨"a", "p", "e", "ep", "t", "s"⟩ with rateLimitedUntil := some 5 },
                       mkState ⟨"b", "p", "e", "ep", "t", "s"⟩],
          active := ["a", "b"], roundRobinIndex := 0 } = (.dispatched u, st') →
      ∃ a, findAccount st'.accounts u = some a ∧
        (a.rateLimitedUntil = none ∨ ∃ t, a.rateLimitedUntil = some t ∧ t ≤ 10) ∧
        a.lastUsed = some 10 ∧
        (∀ a0 t, findAccount [{ mkState ⟨"a", "p", "e", "ep", "t", "s"⟩ with rateLimitedUntil := some 5 },
            mkState ⟨"b", "p", "e", "ep", "t", "s"⟩] u = some a0 →
          a0.rateLimitedUntil = some t → t ≠ 0 → a.rateLimitedUntil = none)) := by
  refine ⟨by decide, ?_⟩
  exact (c3_dispatch_rate_limit_invariant 10 _ (by decide)).1

/-! ### C4: 429 responses set the rate-limit window and retain the session -/

theorem updateRateLimit_active (st : ManagerState) (u : String) (o : Option Nat) :
    (updateRateLimit st u o).active = st.active := by
  unfold updateRateLimit
  cases findAccount st.accounts u <;> rfl

theorem updateRateLimit_find (st : ManagerState) (u : String) (o : Option Nat)
    (a : AccountState) (h : findAccount st.accounts u = some a) :
    findAccount (updateRateLimit st u o).accounts u =
      some { a with rateLimitedUntil := o } := by
  unfold updateRateLimit
  rw [h]
  simp only
  rw [findAccount_setFirst st.accounts u (fun a => { a with rateLimitedUntil := o })
    (fun a => rfl), h]
  rfl

/-- C4: when a response has status 429 the authenticator sets the dispatched
account's `rateLimitedUntil` to `x-rate-limit-reset * 1000` (epoch seconds
to milliseconds) or to `now + 5` minutes when the header is absent, then
rotates to the next session; the rate-limited account stays in the active
pool. -/
theorem c4_rate_limited_set_and_retained (now n : Nat) (outc : String → ReqOutcome)
    (tried : List String) (st st' : ManagerState) (u : String) (reset : Option Nat)
    (hInv : Inv st)
    (hd : dispatch now st = (.dispatched u, st'))
    (hu : u ∉ tried)
    (ho : outc u = .status429 reset) :
    fetchAttempt now n outc tried st =
      .next (tried ++ [u]) (updateRateLimit st' u (some (rlUntilMs now reset))) ∧
    (∀ h, reset = some h → rlUntilMs now reset = h * 1000) ∧
    (reset = none → rlUntilMs now reset = now + 5 * 60 * 1000) ∧
    (∃ a, findAccount (updateRateLimit st' u (some (rlUntilMs now reset))).accounts u = some a ∧
      a.rateLimitedUntil = some (rlUntilMs now reset)) ∧
    (updateRateLimit st' u (some (rlUntilMs now reset))).active = st.active ∧
    u ∈ (updateRateLimit st' u (some (rlUntilMs now reset))).active := by
  obtain ⟨hndb, hnda, hsub, hfail⟩ := hInv
  obtain ⟨idx, hidx, huid, hrl, hacc, hact⟩ := dispatch_dispatched now st u st' hd
  have humem : u ∈ st.active := by
    rw [huid]
    rw [List.getD_eq_getElem?_getD, List.getElem?_eq_getElem hidx]
    exact List.getElem_mem hidx
  obtain ⟨a0, ha0mem, ha0u⟩ := List.mem_map.mp (hsub u humem)
  have hfind : findAccount st.accounts u = some a0 :=
    findAccount_eq_of_nodup _ _ _ hndb ha0mem ha0u
  have hfind' : findAccount st'.accounts u = some (dispatchStamp now a0) := by
    rw [hacc, findAccount_setFirst _ _ _ (dispatchStamp_username now), hfind]
    rfl
  refine ⟨?_, fun h hh => by rw [hh]; rfl, fun hh => by rw [hh]; rfl, ?_, ?_, ?_⟩
  · unfold fetchAttempt
    rw [hd]
    simp [hu, ho]
  · exact ⟨_, updateRateLimit_find st' u _ _ hfind', rfl⟩
  · rw [updateRateLimit_active, hact]
  · rw [updateRateLimit_active, hact]
    exact humem

/-- Witness for C4: a single-account pool whose request comes back 429 with
`x-rate-limit-reset: 7`. -/
theorem c4_rate_limited_set_and_retained_witness :
    Inv { accounts := [mkState ⟨"a", "p", "e", "ep", "t", "s"⟩],
          active := ["a"], roundRobinIndex := 0 } ∧
    dispatch 10 { accounts := [mkState ⟨"a", "p", "e", "ep", "t", "s"⟩],
                  active := ["a"], roundRobinIndex := 0 } =
      (.dispatched "a",
        { accounts := [{ mkState ⟨"a", "p", "e", "ep", "t", "s"⟩ with lastUsed := some 10 }],
          active := ["a"], roundRobinIndex := 0 }) ∧
    ("a" : String) ∉ ([] : List String) ∧
    (fun _ : String => ReqOutcome.status429 (some 7)) "a" = .status429 (some 7) ∧
    (fetchAttempt 10 1 (fun _ => ReqOutcome.status429 (some 7)) []
        { accounts := [mkState ⟨"a", "p", "e", "ep", "t", "s"⟩],
          active := ["a"], roundRobinIndex := 0 } =
      .next ([] ++ ["a"])
        (updateRateLimit
          { accounts := [{ mkState ⟨"a", "p", "e", "ep", "t", "s"⟩ with lastUsed := some 10 }],
            active := ["a"], roundRobinIndex := 0 } "a" (some (rlUntilMs 10 (some 7)))) ∧
      (∀ h, (some 7 : Option Nat) = some h → rlUntilMs 10 (some 7) = h * 1000) ∧
      ((some 7 : Option Nat) = none → rlUntilMs 10 (some 7) = 10 + 5 * 60 * 1000) ∧
      (∃ a, findAccount (updateRateLimit
          { accounts := [{ mkState ⟨"a", "p", "e", "ep", "t", "s"⟩ with lastUsed := some 10 }],
            active := ["a"], roundRobinIndex := 0 } "a" (some (rlUntilMs 10 (some 7)))).accounts "a" =
          some a ∧ a.rateLimitedUntil = some (rlUntilMs 10 (some 7))) ∧
      (updateRateLimit
          { accounts := [{ mkState ⟨"a", "p", "e", "ep", "t", "s"⟩ with lastUsed := some 10 }],
            active := ["a"], roundRobinIndex := 0 } "a" (some (rlUntilMs 10 (some 7)))).active =
        ["a"] ∧
      ("a" : String) ∈ (updateRateLimit
          { accounts := [{ mkState ⟨"a", "p", "e", "ep", "t", "s"⟩ with lastUsed := some 10 }],
            active := ["a"], roundRobinIndex := 0 } "a" (some (rlUntilMs 10 (some 7)))).active) := by
  refine ⟨by decide, by decide, by simp, rfl, ?_⟩
  exact c4_rate_limited_set_and_retained 10 1 (fun _ => ReqOutcome.status429 (some 7)) []
    _ _ "a" (some 7) (by decide) (by decide) (by simp) rfl

/-! ### C7: account import is idempotent by username -/

theorem assignProxy_username (pick : String → Option String) (a : AccountState) :
    (assignProxy pick a).username = a.username := by
  unfold assignProxy
  rcases a.assignedProxy with _ | p
  · rcases pick a.username with _ | q <;> rfl
  · rfl

theorem assignProxy_tokenState (pick : String → Option String) (a : AccountState) :
    (assignProxy pick a).tokenState = a.tokenState := by
  unfold assignProxy
  rcases a.assignedProxy with _ | p
  · rcases pick a.username with _ | q <;> rfl
  · rfl

theorem assignProxy_failedLogin (pick : String → Option String) (a : AccountState) :
    (assignProxy pick a).failedLogin = a.failedLogin := by
  unfold assignProxy
  rcases a.assignedProxy with _ | p
  · rcases pick a.username with _ | q <;> rfl
  · rfl

theorem assignProxy_rateLimitedUntil (pick : String → Option String) (a : AccountState) :
    (assignProxy pick a).rateLimitedUntil = a.rateLimitedUntil := by
  unfold assignProxy
  rcases a.assignedProxy with _ | p
  · rcases pick a.username with _ | q <;> rfl
  · rfl

theorem any_username_iff (l : List AccountState) (u : String) :
    (l.any (fun a => a.username == u)) = true ↔ u ∈ usernames l := by
  rw [List.any_eq_true]
  constructor
  · rintro ⟨a, ha, hau⟩
    exact (beq_iff_eq.mp hau) ▸ List.mem_map_of_mem (·.username) ha
  · intro h
    rcases List.mem_map.mp h with ⟨a, ha, hau⟩
    exact ⟨a, ha, beq_iff_eq.mpr hau⟩

theorem findAccount_append_single (l : List AccountState) (a : AccountState) (u : String)
    (hl : u ∉ usernames l) (ha : a.username = u) :
    findAccount (l ++ [a]) u = some a := by
  induction l with
  | nil => simp [findAccount, List.find?, beq_iff_eq.mpr ha]
  | cons b rest ih =>
    have hb : (b.username == u) = false := by
      refine beq_eq_false_iff_ne.mpr (fun hc => hl ?_)
      exact hc ▸ List.mem_map_of_mem (·.username) (List.mem_cons_self b rest)
    have hrest : u ∉ usernames rest := fun hc =>
      hl (by simpa [usernames] using Or.inr (List.mem_map.mp hc |>.elim
        (fun a' h => ⟨a', h.1, h.2⟩) : ∃ a' ∈ rest, a'.username = u))
    simp only [List.cons_append, findAccount, List.find?, hb]
    exact ih hrest

/-- C7: importing a record twice (or importing it when an account with the
same username already exists) leaves exactly one store entry with that
username, and a newly imported record starts with `tokenState = unknown` and
`failedLogin = false`. -/
theorem c7_add_accounts_idempotent (pick : String → Option String) (st : ManagerState)
    (r : AccountInfo)
    (hcount : (usernames st.accounts).count r.username ≤ 1)
    (hne : r.username ≠ "") :
    (usernames (addAccounts pick st [r]).accounts).count r.username = 1 ∧
    (usernames (addAccounts pick (addAccounts pick st [r]) [r]).accounts).count r.username = 1 ∧
    (r.username ∉ usernames st.accounts →
      ∃ a, findAccount (addAccounts pick st [r]).accounts r.username = some a ∧
        a.tokenState = .unknown ∧ a.failedLogin = false) := by
  have husr : (assignProxy pick (mkState r)).username = r.username := by
    rw [assignProxy_username]
    rfl
  by_cases hmem : r.username ∈ usernames st.accounts
  · have hany : (st.accounts.any (fun a => a.username == r.username)) = true :=
      (any_username_iff _ _).mpr hmem
    have hunchanged : addAccounts pick st [r] = st := by
      unfold addAccounts
      simp only [List.foldl]
      unfold addOne
      rw [if_neg (fun h => h.2 (by rw [hany]))]
    have hc1 : (usernames st.accounts).count r.username = 1 := by
      have := List.count_pos_iff.mpr hmem
      omega
    refine ⟨by rw [hunchanged]; exact hc1, by rw [hunchanged, hunchanged]; exact hc1,
      fun hc => absurd hmem hc⟩
  · have hany : (st.accounts.any (fun a => a.username == r.username)) = false := by
      rcases hb : st.accounts.any (fun a => a.username == r.username) with _ | _
      · rfl
      · exact absurd ((any_username_iff _ _).mp hb) hmem
    have hnotany : ¬ ((st.accounts.any (fun a => a.username == r.username)) = true) := by
      rw [hany]
      exact Bool.false_ne_true
    have hadd : (addAccounts pick st [r]).accounts =
        st.accounts ++ [assignProxy pick (mkState r)] := by
      unfold addAccounts
      simp only [List.foldl]
      unfold addOne
      rw [if_pos ⟨hne, hnotany⟩]
    have husers : usernames (addAccounts pick st [r]).accounts =
        usernames st.accounts ++ [r.username] := by
      rw [hadd]
      unfold usernames
      rw [List.map_append]
      simp [husr]
    have hc0 : (usernames st.accounts).count r.username = 0 :=
      List.count_eq_zero.mpr hmem
    have hc1 : (usernames (addAccounts pick st [r]).accounts).count r.username = 1 := by
      rw [husers, List.count_append, hc0]
      simp
    have hmem1 : r.username ∈ usernames (addAccounts pick st [r]).accounts := by
      rw [husers]
      simp
    have hany1 : ((addAccounts pick st [r]).accounts.any
        (fun a => a.username == r.username)) = true :=
      (any_username_iff _ _).mpr hmem1
    have hstep : addOne pick (addAccounts pick st [r]).accounts r =
        (addAccounts pick st [r]).accounts := by
      unfold addOne
      rw [if_neg (fun h => h.2 (by rw [hany1]))]
    have hunchanged : addAccounts pick (addAccounts pick st [r]) [r] =
        addAccounts pick st [r] := by
      show { addAccounts pick st [r] with
              accounts := addOne pick (addAccounts pick st [r]).accounts r } =
        addAccounts pick st [r]
      rw [hstep]
    refine ⟨hc1, by rw [hunchanged]; exact hc1, fun _ => ?_⟩
    refine ⟨assignProxy pick (mkState r), ?_, ?_, ?_⟩
    · rw [hadd]
      exact findAccount_append_single _ _ _ hmem husr
    · rw [assignProxy_tokenState]
      rfl
    · rw [assignProxy_failedLogin]
      rfl

/-- Witness for C7 at an initially empty store. -/
theorem c7_add_accounts_idempotent_witness :
    ((usernames ([] : List AccountState)).count "alice" ≤ 1 ∧ ("alice" : String) ≠ "") ∧
    (usernames (addAccounts (fun _ => none)
        { accounts := [], active := [], roundRobinIndex := 0 }
        [⟨"alice", "pw", "e", "ep", "t", "s"⟩]).accounts).count "alice" = 1 ∧
    (usernames (addAccounts (fun _ => none)
        (addAccounts (fun _ => none) { accounts := [], active := [], roundRobinIndex := 0 }
          [⟨"alice", "pw", "e", "ep", "t", "s"⟩])
        [⟨"alice", "pw", "e", "ep", "t", "s"⟩]).accounts).count "alice" = 1 := by
  refine ⟨⟨by decide, by decide⟩, ?_, ?_⟩
  · exact (c7_add_accounts_idempotent (fun _ => none)
      { accounts := [], active := [], roundRobinIndex := 0 }
      ⟨"alice", "pw", "e", "ep", "t", "s"⟩ (by decide) (by decide)).1
  · exact (c7_add_accounts_idempotent (fun _ => none)
      { accounts := [], active := [], roundRobinIndex := 0 }
      ⟨"alice", "pw", "e", "ep", "t", "s"⟩ (by decide) (by decide)).2.1

/-! ### C9: the two-factor challenge retries -/

/-- Message carried by a failed flow attempt. -/
def msgOf : FlowRes → String
  | .success => ""
  | .apiError m => m
  | .exception m => m

theorem twoFAGo_succ (res : Nat → FlowRes) (rem attempt : Nat) (lastErr : Option String)
    (h : res attempt = .success) :
    twoFAGo res (rem + 1) attempt lastErr = (.okAt attempt, []) := by
  simp [twoFAGo, h]

theorem twoFAGo_fail (res : Nat → FlowRes) (rem attempt : Nat) (lastErr : Option String)
    (h : res attempt ≠ .success) :
    twoFAGo res (rem + 1) attempt lastErr =
      ((twoFAGo res rem (attempt + 1) (some (msgOf (res attempt)))).1,
       2000 * attempt :: (twoFAGo res rem (attempt + 1) (some (msgOf (res attempt)))).2) := by
  cases hr : res attempt with
  | success => exact absurd hr h
  | apiError m =>
    simp only [twoFAGo, hr, msgOf]
    split <;> rfl
  | exception m =>
    simp only [twoFAGo, hr, msgOf]

theorem twoFA_characterize (res : Nat → FlowRes) :
    (res 1 = .success ∧ handleTwoFactorAuthChallenge res = (.okAt 1, [])) ∨
    (res 1 ≠ .success ∧ res 2 = .success ∧
      handleTwoFactorAuthChallenge res = (.okAt 2, [2000])) ∨
    (res 1 ≠ .success ∧ res 2 ≠ .success ∧ res 3 = .success ∧
      handleTwoFactorAuthChallenge res = (.okAt 3, [2000, 4000])) ∨
    (res 1 ≠ .success ∧ res 2 ≠ .success ∧ res 3 ≠ .success ∧
      handleTwoFactorAuthChallenge res = (.thrown (some (msgOf (res 3))), [2000, 4000, 6000])) := by
  unfold handleTwoFactorAuthChallenge
  by_cases s1 : res 1 = .success
  · exact Or.inl ⟨s1, twoFAGo_succ res 2 1 none s1⟩
  · rw [show (3 : Nat) = 2 + 1 from rfl, twoFAGo_fail res 2 1 none s1]
    by_cases s2 : res 2 = .success
    · rw [twoFAGo_succ res 1 2 _ s2]
      exact Or.inr (Or.inl ⟨s1, s2, rfl⟩)
    · rw [twoFAGo_fail res 1 2 _ s2]
      by_cases s3 : res 3 = .success
      · rw [twoFAGo_succ res 0 3 _ s3]
        exact Or.inr (Or.inr (Or.inl ⟨s1, s2, s3, rfl⟩))
      · rw [twoFAGo_fail res 0 3 _ s3]
        exact Or.inr (Or.inr (Or.inr ⟨s1, s2, s3, rfl⟩))

/-- C9 counterexample: the first attempt fails with an error that does not
contain "verification code is invalid", yet the handler retries (and
succeeds at attempt 2 after a 2 s delay) instead of throwing immediately —
the re-thrown `result.err` is caught by the handler's own catch clause. -/
theorem c9_counterexample :
    handleTwoFactorAuthChallenge
      (fun n => if n = 1 then .apiError "boom" else .success) = (.okAt 2, [2000]) ∧
    hasSub (toLowerStr "boom").data invalidCodeText.data = false := by
  constructor
  · decide
  · decide

/-- C9 (amended): during `LoginTwoFactorAuthChallenge` the handler uses the
library-default 6-digit, 30-second-step TOTP configuration and makes at most
3 attempts, waiting 2 s, 4 s, 6 s after the failed attempts; it retries after
any failed attempt (whether or not the error message contains "verification
code is invalid", since the re-thrown error is caught by the same loop's
catch clause), and after the 3rd failed attempt it throws the last error. -/
theorem c9_two_factor_retry (res : Nat → FlowRes) :
    totpDigits = 6 ∧ totpPeriodSeconds = 30 ∧
    (∀ k, (handleTwoFactorAuthChallenge res).1 = .okAt k →
      1 ≤ k ∧ k ≤ 3 ∧ res k = .success ∧
      (∀ j, 1 ≤ j → j < k → res j ≠ .success) ∧
      (handleTwoFactorAuthChallenge res).2 =
        (List.range (k - 1)).map (fun i => 2000 * (i + 1))) ∧
    ((∀ k, 1 ≤ k → k ≤ 3 → res k ≠ .success) →
      (handleTwoFactorAuthChallenge res).1 = .thrown (some (msgOf (res 3))) ∧
      (handleTwoFactorAuthChallenge res).2 = [2000, 4000, 6000]) := by
  refine ⟨rfl, rfl, ?_, ?_⟩
  · intro k hk
    rcases twoFA_characterize res with ⟨h1, he⟩ | ⟨h1, h2, he⟩ | ⟨h1, h2, h3, he⟩ |
      ⟨h1, h2, h3, he⟩
    · rw [he] at hk ⊢
      cases hk
      refine ⟨le_refl 1, by omega, h1, by omega, rfl⟩
    · rw [he] at hk ⊢
      cases hk
      refine ⟨by omega, by omega, h2, ?_, rfl⟩
      intro j hj1 hj2
      interval_cases j
      exact h1
    · rw [he] at hk ⊢
      cases hk
      refine ⟨by omega, by omega, h3, ?_, rfl⟩
      intro j hj1 hj2
      interval_cases j
      · exact h1
      · exact h2
    · rw [he] at hk
      cases hk
  · intro hall
    rcases twoFA_characterize res with ⟨h1, he⟩ | ⟨h1, h2, he⟩ | ⟨h1, h2, h3, he⟩ |
      ⟨h1, h2, h3, he⟩
    · exact absurd h1 (hall 1 (by omega) (by omega))
    · exact absurd h2 (hall 2 (by omega) (by omega))
    · exact absurd h3 (hall 3 (by omega) (by omega))
    · rw [he]
      exact ⟨rfl, rfl⟩

/-- Witness for C9 at a run where every attempt fails. -/
theorem c9_two_factor_retry_witness :
    (∀ k, 1 ≤ k → k ≤ 3 →
      (fun _ : Nat => FlowRes.apiError "nope") k ≠ .success) ∧
    (handleTwoFactorAuthChallenge (fun _ => FlowRes.apiError "nope")).1 =
      .thrown (some (msgOf (FlowRes.apiError "nope"))) ∧
    (handleTwoFactorAuthChallenge (fun _ => FlowRes.apiError "nope")).2 =
      [2000, 4000, 6000] := by
  refine ⟨by intro k _ _; simp, ?_⟩
  exact (c9_two_factor_retry (fun _ => FlowRes.apiError "nope")).2.2.2
    (by intro k _ _; simp)

/-! ### C8: the access-control body error -/

/-- C8 counterexample: on a 200 response whose body's first error message
contains "Authorization: Denied by access control", the older authenticator
does NOT retry on another session — the `throw` after
`tokenState = 'failed'` sits inside the inner JSON `try`, whose catch
returns the original response, so the body IS returned to the caller;
`failedLogin` also stays `false`, so the account is not marked failed in
the `mark_failed` sense either (a real 403 does not touch the account
state at all here).  The newer authenticator in `search.ts` has no body
check whatsoever and returns this body untouched. -/
theorem c8_counterexample :
    (oldFetchStep (mkState ⟨"a", "p", "e", "ep", "t", "s"⟩) 200 none
        (some ["Error: Authorization: Denied by access control (37)"])).1 =
      .returnBody ∧
    (oldFetchStep (mkState ⟨"a", "p", "e", "ep", "t", "s"⟩) 200 none
        (some ["Error: Authorization: Denied by access control (37)"])).1 ≠
      .retryAnother ∧
    (oldFetchStep (mkState ⟨"a", "p", "e", "ep", "t", "s"⟩) 200 none
        (some ["Error: Authorization: Denied by access control (37)"])).2.tokenState =
      .failed ∧
    (oldFetchStep (mkState ⟨"a", "p", "e", "ep", "t", "s"⟩) 200 none
        (some ["Error: Authorization: Denied by access control (37)"])).2.failedLogin =
      false := by
  refine ⟨?_, ?_, ?_, ?_⟩ <;> decide

/-- C8 (amended): in the older pool authenticator (`account-manager.ts`), a
response that is not a 429 or 403 but whose parseable JSON body has a
non-empty `errors` array with "Authorization: Denied by access control" in
`errors[0].message` gets the account's `tokenState` set to `failed` (its
`failedLogin` flag is not touched), and the body is then still returned to
the caller: the `throw` that follows the state update is raised inside the
inner `try` whose catch returns the original response, so the request is
never retried on another pooled session.  The newer authenticator in
`search.ts` performs no such body check. -/
theorem c8_denied_body_returned (a : AccountState) (status : Nat) (reset : Option Nat)
    (body : Option (List String))
    (h429 : status ≠ 429) (h403 : status ≠ 403) (hb : bodyDenied body = true) :
    oldFetchStep a status reset body = (.returnBody, { a with tokenState := .failed }) ∧
    ({ a with tokenState := .failed } : AccountState).failedLogin = a.failedLogin := by
  refine ⟨?_, rfl⟩
  unfold oldFetchStep
  rw [if_neg h429, if_neg h403, if_pos hb]

/-- Witness for C8 at the concrete denied-body response. -/
theorem c8_denied_body_returned_witness :
    ((200 : Nat) ≠ 429 ∧ (200 : Nat) ≠ 403 ∧
      bodyDenied (some ["Error: Authorization: Denied by access control (37)"]) = true) ∧
    oldFetchStep (mkState ⟨"b", "p", "e", "ep", "t", "s"⟩) 200 none
        (some ["Error: Authorization: Denied by access control (37)"]) =
      (.returnBody, { mkState ⟨"b", "p", "e", "ep", "t", "s"⟩ with tokenState := .failed }) := by
  refine ⟨⟨by decide, by decide, by decide⟩, ?_⟩
  exact (c8_denied_body_returned (mkState ⟨"b", "p", "e", "ep", "t", "s"⟩) 200 none
    (some ["Error: Authorization: Denied by access control (37)"])
    (by decide) (by decide) (by decide)).1

/-! ### C5: `getAllTweetsEver` -/

theorem passGo_main : ∀ (rs seen : List Nat) (low : Option Nat),
    (passGo rs seen low).2.1 = seen ++ (passGo rs seen low).1 ∧
    (∀ y ∈ (passGo rs seen low).1, y ∉ seen) ∧
    (passGo rs seen low).1.Nodup ∧
    (passGo rs seen low).2.2 = List.foldl updLowest low (passGo rs seen low).1 ∧
    (∀ y ∈ (passGo rs seen low).1, y ∈ rs) := by
  intro rs
  induction rs with
  | nil =>
    intro seen low
    simp [passGo]
  | cons r rest ih =>
    intro seen low
    by_cases hr : r ∈ seen
    · simp only [passGo, hr, if_true]
      obtain ⟨h1, h2, h3, h4, h5⟩ := ih seen low
      exact ⟨h1, h2, h3, h4, fun y hy => List.mem_cons_of_mem r (h5 y hy)⟩
    · simp only [passGo, hr, if_false]
      obtain ⟨h1, h2, h3, h4, h5⟩ := ih (seen ++ [r]) (updLowest low r)
      refine ⟨?_, ?_, ?_, ?_, ?_⟩
      · rw [h1, List.append_assoc]
        rfl
      · intro y hy
        rcases List.mem_cons.mp hy with rfl | hy
        · exact hr
        · intro hc
          exact h2 y hy (List.mem_append_left [r] hc)
      · refine List.nodup_cons.mpr ⟨?_, h3⟩
        intro hc
        exact h2 r hc (List.mem_append_right seen (List.mem_singleton.mpr rfl))
      · simp only [List.foldl_cons]
        exact h4
      · intro y hy
        rcases List.mem_cons.mp hy with rfl | hy
        · exact List.mem_cons_self _ _
        · exact List.mem_cons_of_mem _ (h5 y hy)

theorem foldl_updLowest_some : ∀ (ys : List Nat) (l0 : Nat), l0 ≠ 0 → 0 ∉ ys →
    List.foldl updLowest (some l0) ys = some (ys.foldl min l0) := by
  intro ys
  induction ys with
  | nil => intro l0 _ _; rfl
  | cons y rest ih =>
    intro l0 h0 hys
    have hy : y ≠ 0 := fun hc => hys (hc ▸ List.mem_cons_self y rest)
    have hstep : updLowest (some l0) y = some (min l0 y) := by
      simp only [updLowest]
      by_cases hlt : y < l0
      · rw [if_pos (Or.inr hlt), Nat.min_eq_right (Nat.le_of_lt hlt)]
      · rw [if_neg (by omega), Nat.min_eq_left (by omega)]
    simp only [List.foldl_cons, hstep]
    exact ih (min l0 y) (by omega) (fun hc => hys (List.mem_cons_of_mem y hc))

theorem foldl_updLowest_minimum : ∀ (ys : List Nat), 0 ∉ ys →
    List.foldl updLowest none ys = ys.min? := by
  intro ys h0
  cases ys with
  | nil => rfl
  | cons y rest =>
    have hy : y ≠ 0 := fun hc => h0 (hc ▸ List.mem_cons_self y rest)
    have : updLowest none y = some y := rfl
    simp only [List.foldl_cons, this]
    rw [foldl_updLowest_some rest y hy (fun hc => h0 (List.mem_cons_of_mem y hc))]
    rfl

theorem allTweetsGo_main (search : Option Nat → List Nat)
    (hpos : ∀ m, (0 : Nat) ∉ search m) :
    ∀ (fuel : Nat) (seen : List Nat) (maxId : Option Nat),
    (yieldsOf (allTweetsGo search fuel seen maxId).1).Nodup ∧
    (∀ y ∈ yieldsOf (allTweetsGo search fuel seen maxId).1, y ∉ seen) ∧
    (∀ q ys, (allTweetsGo search fuel seen maxId).1.head? = some (q, ys) → q = maxId) ∧
    (∀ i qi ysi qj ysj, (allTweetsGo search fuel seen maxId).1[i]? = some (qi, ysi) →
      (allTweetsGo search fuel seen maxId).1[i + 1]? = some (qj, ysj) →
      ysi ≠ [] ∧ qj = ysi.min?) ∧
    ((allTweetsGo search fuel seen maxId).2 = true →
      ∃ q, (allTweetsGo search fuel seen maxId).1.getLast? = some (q, [])) ∧
    ((allTweetsGo search fuel seen maxId).2 = false →
      ∀ p ∈ (allTweetsGo search fuel seen maxId).1, p.2 ≠ []) := by
  intro fuel
  induction fuel with
  | zero =>
    intro seen maxId
    refine ⟨by simp [allTweetsGo, yieldsOf], by simp [allTweetsGo, yieldsOf], ?_, ?_, ?_, ?_⟩
    · intro q ys h
      simp [allTweetsGo] at h
    · intro i qi ysi qj ysj h
      simp [allTweetsGo] at h
    · intro h
      simp [allTweetsGo] at h
    · intro _ p hp
      simp [allTweetsGo] at hp
  | succ fuel ih =>
    intro seen maxId
    obtain ⟨hp1, hp2, hp3, hp4, hp5⟩ := passGo_main (search maxId) seen none
    have hys0 : (0 : Nat) ∉ (passGo (search maxId) seen none).1 :=
      fun hc => hpos maxId (hp5 0 hc)
    have hlowmin : (passGo (search maxId) seen none).2.2 =
        (passGo (search maxId) seen none).1.min? := by
      rw [hp4]
      exact foldl_updLowest_minimum _ hys0
    rcases hlow : (passGo (search maxId) seen none).2.2 with _ | l
    · have hysnil : (passGo (search maxId) seen none).1 = [] := by
        rw [hlow] at hlowmin
        rcases hys : (passGo (search maxId) seen none).1 with _ | ⟨y, rest⟩
        · rfl
        · rw [hys] at hlowmin
          simp [List.min?] at hlowmin
      refine ⟨?_, ?_, ?_, ?_, ?_, ?_⟩ <;>
        simp only [allTweetsGo, hlow]
      · simp [yieldsOf, hysnil]
      · simp [yieldsOf, hysnil]
      · intro q ys h
        simp only [List.head?] at h
        cases h
        rfl
      · intro i qi ysi qj ysj h1 h2
        rcases i with _ | i
        · simp at h2
        · simp at h1
      · intro _
        exact ⟨maxId, by simp [hysnil]⟩
      · intro h
        cases h
    · obtain ⟨ih1, ih2, ih3, ih4, ih5, ih6⟩ :=
        ih (passGo (search maxId) seen none).2.1 (some l)
      have hysne : (passGo (search maxId) seen none).1 ≠ [] := by
        intro hc
        rw [hc] at hp4
        rw [hp4] at hlow
        cases hlow
      have hmin : (passGo (search maxId) seen none).1.min? = some l := by
        rw [← hlowmin, hlow]
      refine ⟨?_, ?_, ?_, ?_, ?_, ?_⟩ <;>
        simp only [allTweetsGo, hlow]
      · simp only [yieldsOf, List.map_cons, List.flatten_cons]
        rw [List.nodup_append]
        refine ⟨hp3, ih1, ?_⟩
        intro y hy hy2
        have := ih2 y hy2
        rw [hp1] at this
        exact this (List.mem_append_right seen hy)
      · intro y hy
        simp only [yieldsOf, List.map_cons, List.flatten_cons] at hy
        rcases List.mem_append.mp hy with hy | hy
        · exact hp2 y hy
        · intro hc
          have := ih2 y hy
          rw [hp1] at this
          exact this (List.mem_append_left _ hc)
      · intro q ys h
        simp only [List.head?] at h
        cases h
        rfl
      · intro i qi ysi qj ysj h1 h2
        rcases i with _ | i
        · simp only [List.getElem?_cons_zero] at h1
          cases h1
          simp only [List.getElem?_cons_succ] at h2
          have hhead : ∀ q ys,
              (allTweetsGo search fuel (passGo (search maxId) seen none).2.1 (some l)).1.head? =
                some (q, ys) → q = some l := ih3
          rcases hq : (allTweetsGo search fuel (passGo (search maxId) seen none).2.1
              (some l)).1 with _ | ⟨⟨q0, ys0⟩, rest0⟩
          · rw [hq] at h2
            simp at h2
          · rw [hq] at h2
            simp only [List.getElem?_cons_zero] at h2
            cases h2
            have := hhead qj ysj (by rw [hq]; rfl)
            exact ⟨hysne, by rw [this, hmin]⟩
        · simp only [List.getElem?_cons_succ] at h1 h2
          exact ih4 i qi ysi qj ysj h1 h2
      · intro hfin
        obtain ⟨q, hq⟩ := ih5 hfin
        rcases hq2 : (allTweetsGo search fuel (passGo (search maxId) seen none).2.1
            (some l)).1 with _ | ⟨x, xs⟩
        · rw [hq2] at hq
          cases hq
        · rw [hq2] at hq
          refine ⟨q, ?_⟩
          rw [List.getLast?_cons_cons]
          exact hq
      · intro hfin p hp
        rcases List.mem_cons.mp hp with rfl | hp
        · exact hysne
        · exact ih6 hfin p hp

/-- A concrete upstream for `getAllTweetsEver`: the unbounded search returns
tweets 10 and 5, and the (inclusive) `max_id:5` search returns tweet 5 again. -/
def cexSearch (m : Option Nat) : List Nat :=
  match m with
  | none => [10, 5]
  | some n => if n = 5 then [5] else []

/-- C5 counterexample: after the first exhausted pass (smallest id seen: 5),
`getAllTweetsEver` restarts the search with `max_id:5` — the smallest id
itself, not `5 - 1 = 4` as the claim states (the code sets
`max_id = lowest.toString()` with no decrement and relies on the seen-id set
to skip the repeated boundary tweet). -/
theorem c5_counterexample :
    allTweetsEver cexSearch 5 = ([(none, [10, 5]), (some 5, [])], true) ∧
    (5 : Nat) ≠ 5 - 1 := by
  exact ⟨by decide, by decide⟩

/-- C5 (amended): for positive tweet ids, `getAllTweetsEver` yields no
duplicate ids; the first pass runs without a `max_id` bound and every
restarted pass uses `max_id` equal to the smallest id newly seen in the
previous pass (no decrement, minimum taken by integer comparison); every
pass before a restart yielded at least one new item, and the iteration
terminates exactly when a pass yields no new items (if the fuel runs out
instead, every pass so far yielded new items). -/
theorem c5_all_tweets_dedup_restart (search : Option Nat → List Nat) (fuel : Nat)
    (hpos : ∀ m, (0 : Nat) ∉ search m) :
    (yieldsOf (allTweetsEver search fuel).1).Nodup ∧
    (∀ q ys, (allTweetsEver search fuel).1.head? = some (q, ys) → q = none) ∧
    (∀ i qi ysi qj ysj, (allTweetsEver search fuel).1[i]? = some (qi, ysi) →
      (allTweetsEver search fuel).1[i + 1]? = some (qj, ysj) →
      ysi ≠ [] ∧ qj = ysi.min?) ∧
    ((allTweetsEver search fuel).2 = true →
      ∃ q, (allTweetsEver search fuel).1.getLast? = some (q, [])) ∧
    ((allTweetsEver search fuel).2 = false →
      ∀ p ∈ (allTweetsEver search fuel).1, p.2 ≠ []) := by
  obtain ⟨h1, h2, h3, h4, h5, h6⟩ := allTweetsGo_main search hpos fuel [] none
  exact ⟨h1, h3, h4, h5, h6⟩

/-- Witness for C5 at the concrete two-pass upstream. -/
theorem c5_all_tweets_dedup_restart_witness :
    (∀ m, (0 : Nat) ∉ cexSearch m) ∧
    (yieldsOf (allTweetsEver cexSearch 5).1).Nodup ∧
    ((allTweetsEver cexSearch 5).2 = true →
      ∃ q, (allTweetsEver cexSearch 5).1.getLast? = some (q, [])) := by
  have hpos : ∀ m, (0 : Nat) ∉ cexSearch m := by
    intro m
    rcases m with _ | n
    · decide
    · by_cases h : n = 5 <;> simp [cexSearch, h]
  have h := c5_all_tweets_dedup_restart cexSearch 5 hpos
  exact ⟨hpos, h.1, h.2.2.2.1⟩

/-! ### C2: `failedLogin` accounts are never in the active pool -/

theorem initStep_username (env : InitEnv) (a : AccountState) :
    (initStep env a).1.username = a.username := by
  simp only [initStep]
  repeat' split
  all_goals simp [assignProxy_username]

theorem initStep_failedLogin (env : InitEnv) (a : AccountState) :
    (initStep env a).1.failedLogin = !(initStep env a).2 := by
  simp only [initStep]
  repeat' split
  all_goals rfl

theorem usernames_map_preserving (l : List AccountState) (g : AccountState → AccountState)
    (hg : ∀ a, (g a).username = a.username) :
    usernames (l.map g) = usernames l := by
  unfold usernames
  rw [List.map_map]
  exact List.map_congr_left (fun a _ => hg a)

theorem inv_dispatch (now : Nat) (st : ManagerState) (hInv : Inv st) :
    Inv (dispatch now st).2 := by
  obtain ⟨hndb, hnda, hsub, hfail⟩ := hInv
  rcases hd : dispatch now st with ⟨res, st'⟩
  cases res with
  | poolEmpty =>
    unfold dispatch at hd
    by_cases hn : st.active.length = 0
    · simp only [hn, if_true] at hd
      cases hd
      exact ⟨hndb, hnda, hsub, hfail⟩
    · simp only [hn, if_false] at hd
      rcases hf : (List.range st.active.length).find?
          (fun i => !(truthyGt now (rlOfIdx st ((st.roundRobinIndex + i) % st.active.length)))) with
        _ | i <;> rw [hf] at hd <;> cases hd
  | noneUsable =>
    have := dispatch_noneUsable now st st' hd
    unfold dispatch at hd
    by_cases hn : st.active.length = 0
    · simp only [hn, if_true] at hd
      cases hd
    · simp only [hn, if_false] at hd
      rcases hf : (List.range st.active.length).find?
          (fun i => !(truthyGt now (rlOfIdx st ((st.roundRobinIndex + i) % st.active.length)))) with
        _ | i <;> rw [hf] at hd
      · cases hd
        exact ⟨hndb, hnda, hsub, hfail⟩
      · cases hd
  | dispatched u =>
    obtain ⟨idx, hidx, huid, hrl, hacc, hact⟩ := dispatch_dispatched now st u st' hd
    refine ⟨?_, ?_, ?_, ?_⟩
    · rw [hacc, usernames_setFirst _ _ _ (dispatchStamp_username now)]
      exact hndb
    · rw [hact]
      exact hnda
    · intro v hv
      rw [hact] at hv
      rw [hacc, usernames_setFirst _ _ _ (dispatchStamp_username now)]
      exact hsub v hv
    · intro b hb hbf
      rw [hact]
      rw [hacc] at hb
      rcases mem_setFirst _ _ _ _ hb with hb | ⟨a0, ha0, ha0u, rfl⟩
      · exact hfail b hb hbf
      · rw [dispatchStamp_username]
        have : a0.failedLogin = true := by
          rw [← dispatchStamp_failedLogin now a0]
          exact hbf
        exact hfail a0 ha0 this

theorem inv_markFailed (now : Nat) (st : ManagerState) (u : String) (hInv : Inv st) :
    Inv (markFailed now st u) := by
  obtain ⟨hndb, hnda, hsub, hfail⟩ := hInv
  rcases hf : findAccount st.accounts u with _ | a0
  · have hst : markFailed now st u = st := by
      unfold markFailed
      rw [hf]
    rw [hst]
    exact ⟨hndb, hnda, hsub, hfail⟩
  · have hacc : (markFailed now st u).accounts = setFirst st.accounts u (fun a =>
        { a with failedLogin := true, tokenState := .failed, lastFailedAt := some now }) := by
      unfold markFailed
      rw [hf]
    have hact : (markFailed now st u).active = removeFirst st.active u := by
      unfold markFailed
      rw [hf]
    refine ⟨?_, ?_, ?_, ?_⟩
    · rw [hacc, usernames_setFirst st.accounts u (fun a =>
        { a with failedLogin := true, tokenState := .failed, lastFailedAt := some now })
        (fun a => rfl)]
      exact hndb
    · rw [hact]
      exact (removeFirst_sublist st.active u).nodup hnda
    · intro v hv
      rw [hact] at hv
      rw [hacc, usernames_setFirst st.accounts u (fun a =>
        { a with failedLogin := true, tokenState := .failed, lastFailedAt := some now })
        (fun a => rfl)]
      exact hsub v (mem_removeFirst _ _ _ hv)
    · intro b hb hbf
      rw [hact]
      rw [hacc] at hb
      rcases mem_setFirst _ _ _ _ hb with hb | ⟨a1, ha1, ha1u, rfl⟩
      · intro hc
        exact hfail b hb hbf (mem_removeFirst _ _ _ hc)
      · simp only
        rw [ha1u]
        exact not_mem_removeFirst _ _ hnda

theorem inv_deleteAccount (st : ManagerState) (u : String) (hInv : Inv st) :
    Inv (deleteAccount st u) := by
  obtain ⟨hndb, hnda, hsub, hfail⟩ := hInv
  unfold deleteAccount
  by_cases hlen : (st.accounts.filter (fun a => !(a.username == u))).length =
      st.accounts.length
  · rw [if_pos hlen]
    have heq : st.accounts.filter (fun a => !(a.username == u)) = st.accounts :=
      (List.filter_sublist _).eq_of_length hlen
    rw [heq]
    exact ⟨hndb, hnda, hsub, hfail⟩
  · rw [if_neg hlen]
    have hsubl : (st.accounts.filter (fun a => !(a.username == u))).Sublist st.accounts :=
      List.filter_sublist _
    refine ⟨?_, ?_, ?_, ?_⟩
    · exact (hsubl.map (fun a : AccountState => a.username)).nodup hndb
    · exact (removeFirst_sublist st.active u).nodup hnda
    · intro v hv
      have hva : v ∈ st.active := mem_removeFirst _ _ _ hv
      have hvu : v ≠ u := by
        intro hc
        subst hc
        exact not_mem_removeFirst _ _ hnda hv
      obtain ⟨a0, ha0, ha0u⟩ := List.mem_map.mp (hsub v hva)
      have : a0 ∈ st.accounts.filter (fun a => !(a.username == u)) := by
        rw [List.mem_filter]
        refine ⟨ha0, ?_⟩
        simp only [Bool.not_eq_eq_eq_not, Bool.not_true]
        exact beq_eq_false_iff_ne.mpr (fun hc => hvu (ha0u ▸ hc ▸ rfl))
      exact ha0u ▸ List.mem_map_of_mem (·.username) this
    · intro b hb hbf
      intro hc
      exact hfail b (List.mem_of_mem_filter hb) hbf (mem_removeFirst _ _ _ hc)

theorem inv_resetFailedLogins (pick : String → Option String) (st : ManagerState)
    (hInv : Inv st) : Inv (resetFailedLogins pick st) := by
  obtain ⟨hndb, hnda, hsub, hfail⟩ := hInv
  unfold resetFailedLogins
  have hg : ∀ a : AccountState, (assignProxy pick
      { a with failedLogin := false, tokenState := .unknown,
               lastFailedAt := none, rateLimitedUntil := none,
               assignedProxy := none }).username = a.username := by
    intro a
    rw [assignProxy_username]
  refine ⟨?_, hnda, ?_, ?_⟩
  · rw [usernames_map_preserving _ _ hg]
    exact hndb
  · intro v hv
    rw [usernames_map_preserving _ _ hg]
    exact hsub v hv
  · intro b hb hbf
    rcases List.mem_map.mp hb with ⟨a0, ha0, rfl⟩
    rw [assignProxy_failedLogin] at hbf
    cases hbf

theorem initLoop_inv (env : InitEnv) :
    ∀ (cands : List String) (accs : List AccountState) (active : List String),
    (usernames accs).Nodup →
    active.Nodup →
    (∀ u ∈ active, u ∈ usernames accs) →
    (∀ a ∈ accs, a.failedLogin = true → a.username ∉ active) →
    cands.Nodup →
    (∀ u ∈ cands, u ∉ active) →
    usernames (initLoop env cands accs active).1 = usernames accs ∧
    (initLoop env cands accs active).2.Nodup ∧
    (∀ u ∈ (initLoop env cands accs active).2,
      u ∈ usernames (initLoop env cands accs active).1) ∧
    (∀ a ∈ (initLoop env cands accs active).1, a.failedLogin = true →
      a.username ∉ (initLoop env cands accs active).2) := by
  intro cands
  induction cands with
  | nil =>
    intro accs active h1 h2 h3 h4 _ _
    exact ⟨rfl, h2, h3, h4⟩
  | cons u rest ih =>
    intro accs active h1 h2 h3 h4 hc1 hc2
    rcases List.nodup_cons.mp hc1 with ⟨hu_rest, hrest_nd⟩
    by_cases hsize : 5 ≤ active.length
    · have heq : initLoop env (u :: rest) accs active = (accs, active) := by
        unfold initLoop
        rw [if_pos hsize]
      rw [heq]
      exact ⟨rfl, h2, h3, h4⟩
    · simp only [initLoop, hsize, if_false]
      rcases hfa : findAccount accs u with _ | a
      · exact ih accs active h1 h2 h3 h4 hrest_nd (fun v hv => hc2 v (List.mem_cons_of_mem u hv))
      · obtain ⟨hamem, hau⟩ := findAccount_some _ _ _ hfa
        by_cases hskip : a.failedLogin || truthyGt env.now a.rateLimitedUntil
        · simp only [hskip, if_true]
          exact ih accs active h1 h2 h3 h4 hrest_nd
            (fun v hv => hc2 v (List.mem_cons_of_mem u hv))
        · simp only [hskip, Bool.false_eq_true, if_false]
          have hanotfailed : a.failedLogin = false := by
            rcases hq : a.failedLogin with _ | _
            · rfl
            · rw [hq] at hskip
              simp at hskip
          have huacc : u ∈ usernames accs := hau ▸ List.mem_map_of_mem (·.username) hamem
          have hsu : usernames (setFirst accs u (fun b => (initStep env b).1)) =
              usernames accs :=
            usernames_setFirst _ _ _ (initStep_username env)
          have hnd' : (usernames (setFirst accs u (fun b => (initStep env b).1))).Nodup := by
            rw [hsu]
            exact h1
          have hunotactive : u ∉ active := hc2 u (List.mem_cons_self u rest)
          rcases hpush : (initStep env a).2 with _ | _
          · -- login failed: the account is marked failed and not pushed
            simp only [hpush, Bool.false_eq_true, if_false]
            have h4' : ∀ b ∈ setFirst accs u (fun b => (initStep env b).1),
                b.failedLogin = true → b.username ∉ active := by
              intro b hb hbf
              rcases mem_setFirst _ _ _ _ hb with hb | ⟨a1, ha1, ha1u, rfl⟩
              · exact h4 b hb hbf
              · have ha1a : a1 = a := by
                  have := findAccount_eq_of_nodup _ _ _ h1 ha1 ha1u
                  rw [hfa] at this
                  cases this
                  rfl
                subst ha1a
                rw [initStep_username, ha1u]
                exact hunotactive
            obtain ⟨e1, e2, e3, e4⟩ := ih _ active hnd' h2
              (fun v hv => by rw [hsu]; exact h3 v hv) h4' hrest_nd
              (fun v hv => hc2 v (List.mem_cons_of_mem u hv))
            exact ⟨e1.trans hsu, e2, e3, e4⟩
          · -- login succeeded: pushed to the active pool with failedLogin = false
            simp only [hpush, if_true]
            have h3' : ∀ v ∈ active ++ [u],
                v ∈ usernames (setFirst accs u (fun b => (initStep env b).1)) := by
              intro v hv
              rw [hsu]
              rcases List.mem_append.mp hv with hv | hv
              · exact h3 v hv
              · rcases List.mem_singleton.mp hv with rfl
                exact huacc
            have h4' : ∀ b ∈ setFirst accs u (fun b => (initStep env b).1),
                b.failedLogin = true → b.username ∉ active ++ [u] := by
              intro b hb hbf
              rcases mem_setFirst _ _ _ _ hb with hb | ⟨a1, ha1, ha1u, rfl⟩
              · intro hcmem
                rcases List.mem_append.mp hcmem with hcmem | hcmem
                · exact h4 b hb hbf hcmem
                · rcases List.mem_singleton.mp hcmem with hbu
                  have hba : b = a := by
                    have := findAccount_eq_of_nodup _ _ _ h1 hb hbu
                    rw [hfa] at this
                    cases this
                    rfl
                  subst hba
                  rw [hbf] at hanotfailed
                  cases hanotfailed
              · have ha1a : a1 = a := by
                  have := findAccount_eq_of_nodup _ _ _ h1 ha1 ha1u
                  rw [hfa] at this
                  cases this
                  rfl
                subst ha1a
                rw [initStep_failedLogin, hpush] at hbf
                cases hbf
            have hc2' : ∀ v ∈ rest, v ∉ active ++ [u] := by
              intro v hv hvmem
              rcases List.mem_append.mp hvmem with hvmem | hvmem
              · exact hc2 v (List.mem_cons_of_mem u hv) hvmem
              · rcases List.mem_singleton.mp hvmem with rfl
                exact hu_rest hv
            obtain ⟨e1, e2, e3, e4⟩ := ih _ (active ++ [u]) hnd'
              (nodup_snoc h2 hunotactive) h3' h4' hrest_nd hc2'
            exact ⟨e1.trans hsu, e2, e3, e4⟩

theorem inv_initPool (env : InitEnv) (st : ManagerState) (hInv : Inv st) :
    Inv (initPool env st) := by
  obtain ⟨hndb, hnda, hsub, hfail⟩ := hInv
  unfold initPool
  have hperm : ((st.accounts.filter (fun a => !a.failedLogin)).insertionSort
      (fun a b => a.lastUsed.getD 0 ≤ b.lastUsed.getD 0)).Perm
      (st.accounts.filter (fun a => !a.failedLogin)) :=
    List.perm_insertionSort _ _
  have hcnd : (((st.accounts.filter (fun a => !a.failedLogin)).insertionSort
      (fun a b => a.lastUsed.getD 0 ≤ b.lastUsed.getD 0)).map (·.username)).Nodup := by
    refine ((hperm.map (fun a : AccountState => a.username)).symm.nodup ?_)
    exact ((List.filter_sublist _).map (fun a : AccountState => a.username)).nodup hndb
  obtain ⟨he, h2, h3, h4⟩ := initLoop_inv env _ st.accounts [] hndb List.nodup_nil
    (by intro u hu; cases hu) (by intro a _ _ hc; cases hc) hcnd
    (by intro u _ hc; cases hc)
  exact ⟨by rw [he]; exact hndb, h2, h3, h4⟩

/-- C2: no `failedLogin` account is ever a member of the active pool: the
invariant is preserved by warm-up, dispatch, `markFailed`, delete and reset;
`markFailed` sets `failedLogin = true` and `tokenState = failed` and removes
the account from the active pool; and warm-up only puts accounts with
`failedLogin = false` into the pool. -/
theorem c2_failed_not_in_active_pool :
    (∀ env st, Inv st → Inv (initPool env st)) ∧
    (∀ now st, Inv st → Inv (dispatch now st).2) ∧
    (∀ now st u, Inv st → Inv (markFailed now st u)) ∧
    (∀ st u, Inv st → Inv (deleteAccount st u)) ∧
    (∀ pick st, Inv st → Inv (resetFailedLogins pick st)) ∧
    (∀ now st u, Inv st → u ∈ usernames st.accounts →
      (∃ a, findAccount (markFailed now st u).accounts u = some a ∧
        a.failedLogin = true ∧ a.tokenState = .failed) ∧
      u ∉ (markFailed now st u).active) ∧
    (∀ env st, Inv st → ∀ u ∈ (initPool env st).active,
      ∃ a, findAccount (initPool env st).accounts u = some a ∧ a.failedLogin = false) := by
  refine ⟨inv_initPool, inv_dispatch, inv_markFailed, inv_deleteAccount,
    inv_resetFailedLogins, ?_, ?_⟩
  · intro now st u hInv hu
    obtain ⟨hndb, hnda, hsub, hfail⟩ := hInv
    obtain ⟨a0, ha0, ha0u⟩ := List.mem_map.mp hu
    have hf : findAccount st.accounts u = some a0 :=
      findAccount_eq_of_nodup _ _ _ hndb ha0 ha0u
    have hacc2 : (markFailed now st u).accounts = setFirst st.accounts u (fun a =>
        { a with failedLogin := true, tokenState := .failed, lastFailedAt := some now }) := by
      unfold markFailed
      rw [hf]
    have hact2 : (markFailed now st u).active = removeFirst st.active u := by
      unfold markFailed
      rw [hf]
    constructor
    · have hfind2 : findAccount (markFailed now st u).accounts u =
          some ({ a0 with
                    failedLogin := true
                    tokenState := .failed
                    lastFailedAt := some now } : AccountState) := by
        rw [hacc2, findAccount_setFirst st.accounts u
          (fun a => { a with
                        failedLogin := true
                        tokenState := .failed
                        lastFailedAt := some now }) (fun a => rfl), hf]
        rfl
      exact ⟨_, hfind2, rfl, rfl⟩
    · rw [hact2]
      exact not_mem_removeFirst _ _ hnda
  · intro env st hInv u hu
    have hInv' := inv_initPool env st hInv
    obtain ⟨hndb', hnda', hsub', hfail'⟩ := hInv'
    obtain ⟨a0, ha0, ha0u⟩ := List.mem_map.mp (hsub' u hu)
    refine ⟨a0, findAccount_eq_of_nodup _ _ _ hndb' ha0 ha0u, ?_⟩
    rcases hq : a0.failedLogin with _ | _
    · rfl
    · exact absurd (ha0u ▸ hu) (hfail' a0 ha0 hq)

/-- A concrete store for the C2 witness: one failed and one fresh account. -/
def c2state : ManagerState :=
  { accounts := [{ mkState ⟨"a", "p", "e", "ep", "t", "s"⟩ with failedLogin := true, tokenState := .failed },
                 mkState ⟨"b", "p", "e", "ep", "t", "s"⟩],
    active := ["b"], roundRobinIndex := 0 }

/-- Witness for C2 at a concrete store with one failed and one fresh
account. -/
theorem c2_failed_not_in_active_pool_witness :
    Inv c2state ∧
    ("b" : String) ∈ usernames c2state.accounts ∧
    Inv (markFailed 3 c2state "b") ∧
    (∃ a, findAccount (markFailed 3 c2state "b").accounts "b" = some a ∧
      a.failedLogin = true ∧ a.tokenState = .failed) ∧
    ("b" : String) ∉ (markFailed 3 c2state "b").active := by
  refine ⟨by decide, by decide, ?_, ?_, ?_⟩
  · exact c2_failed_not_in_active_pool.2.2.1 3 c2state "b" (by decide)
  · exact (c2_failed_not_in_active_pool.2.2.2.2.2.1 3 c2state "b" (by decide) (by decide)).1
  · exact (c2_failed_not_in_active_pool.2.2.2.2.2.1 3 c2state "b" (by decide) (by decide)).2

/-! ### C6: the parse/serialize round trip -/

/-- The token shape of the regex generated for a `:`-separated format: the
capture groups joined by literal colons. -/
def sepToks : List String → List Tok
  | [] => []
  | [n] => [.grp n]
  | n :: rest => .grp n :: .lit ':' :: sepToks rest

theorem takeWhile_all {p : Char → Bool} :
    ∀ (l : List Char), (∀ c ∈ l, p c = true) → l.takeWhile p = l := by
  intro l
  induction l with
  | nil => intro _; rfl
  | cons c cs ih =>
    intro h
    rw [List.takeWhile_cons, h c (List.mem_cons_self c cs), ih
      (fun x hx => h x (List.mem_cons_of_mem c hx))]
    simp

theorem joinColon_cons (f : List Char) (fs : List (List Char)) (h : fs ≠ []) :
    joinColon (f :: fs) = f ++ ':' :: joinColon fs := by
  cases fs with
  | nil => exact absurd rfl h
  | cons g gs => rfl

theorem joinLines_cons (l : List Char) (ls : List (List Char)) (h : ls ≠ []) :
    joinLines (l :: ls) = l ++ '\n' :: joinLines ls := by
  cases ls with
  | nil => exact absurd rfl h
  | cons g gs => rfl

theorem mem_joinColon : ∀ (fs : List (List Char)) (c : Char), c ∈ joinColon fs →
    c = ':' ∨ ∃ f ∈ fs, c ∈ f := by
  intro fs
  induction fs with
  | nil =>
    intro c hc
    cases hc
  | cons f gs ih =>
    intro c hc
    cases gs with
    | nil =>
      exact Or.inr ⟨f, List.mem_cons_self f [], hc⟩
    | cons g gs' =>
      rw [joinColon_cons f (g :: gs') (by simp)] at hc
      rcases List.mem_append.mp hc with hc | hc
      · exact Or.inr ⟨f, List.mem_cons_self _ _, hc⟩
      · rcases List.mem_cons.mp hc with rfl | hc
        · exact Or.inl rfl
        · rcases ih c hc with h | ⟨f', hf', hcf'⟩
          · exact Or.inl h
          · exact Or.inr ⟨f', List.mem_cons_of_mem f hf', hcf'⟩

theorem joinColon_count : ∀ (fs : List (List Char)), fs ≠ [] →
    (∀ f ∈ fs, ∀ c ∈ f, ¬ c = ':') →
    (joinColon fs).count ':' = fs.length - 1 := by
  intro fs
  induction fs with
  | nil => intro h; exact absurd rfl h
  | cons f gs ih =>
    intro _ hfree
    have hf0 : f.count ':' = 0 := by
      rw [List.count_eq_zero]
      intro hc
      exact hfree f (List.mem_cons_self f gs) ':' hc rfl
    cases gs with
    | nil => simpa [joinColon] using hf0
    | cons g gs' =>
      rw [joinColon_cons f (g :: gs') (by simp), List.count_append, hf0,
        List.count_cons_self, ih (by simp)
          (fun f' hf' => hfree f' (List.mem_cons_of_mem f hf'))]
      simp

theorem range_reverse_cons (m : Nat) :
    (List.range (m + 1)).reverse = m :: (List.range m).reverse := by
  rw [List.range_succ, List.reverse_append]
  rfl

theorem findSome_desc {β : Type} (f : Nat → Option β) :
    ∀ (m t : Nat) (r : β), t ≤ m → (∀ k, t < k → k ≤ m → f k = none) → f t = some r →
    ((List.range (m + 1)).reverse).findSome? f = some r := by
  intro m
  induction m with
  | zero =>
    intro t r ht _ h2
    have : t = 0 := by omega
    subst this
    rw [range_reverse_cons, List.findSome?_cons, h2]
  | succ m ihm =>
    intro t r ht h1 h2
    rw [range_reverse_cons, List.findSome?_cons]
    by_cases hc : t = m + 1
    · subst hc
      rw [h2]
    · rw [h1 (m + 1) (by omega) (le_refl _)]
      exact ihm t r (by omega) (fun k hk1 hk2 => h1 k hk1 (by omega)) h2

theorem matchCore_lit_some (c : Char) (ts : List Tok) (w : List Char)
    (gs : List (String × String)) (h : matchCore (.lit c :: ts) w = some gs) :
    ∃ v, w = c :: v ∧ matchCore ts v = some gs := by
  cases w with
  | nil => simp [matchCore] at h
  | cons x xs =>
    simp only [matchCore] at h
    by_cases hx : x = c
    · rw [if_pos hx] at h
      exact ⟨xs, by rw [hx], h⟩
    · rw [if_neg hx] at h
      cases h

theorem matchCore_grp (n : String) (ts : List Tok) (s : List Char) :
    matchCore (.grp n :: ts) s =
      ((List.range ((s.takeWhile dotChar).length + 1)).reverse).findSome?
        (fun k => (matchCore ts (s.drop k)).map
          (fun gs => (n, (s.take k).asString) :: gs)) := rfl

theorem matchCore_lit_colon (ts : List Tok) (w : List Char) :
    matchCore (.lit ':' :: ts) (':' :: w) = matchCore ts w := by
  simp [matchCore]

theorem matchCore_colon_count : ∀ (names : List String) (z : List Char)
    (gs : List (String × String)),
    matchCore (sepToks names) z = some gs → names.length - 1 ≤ z.count ':' := by
  intro names
  induction names with
  | nil =>
    intro z gs _
    simp
  | cons n names' ih =>
    intro z gs h
    cases names' with
    | nil => simp
    | cons n' rest =>
      rw [show sepToks (n :: n' :: rest) = .grp n :: .lit ':' :: sepToks (n' :: rest)
        from rfl, matchCore_grp] at h
      obtain ⟨k, -, hk⟩ := List.exists_of_findSome?_eq_some h
      rcases hmap : matchCore (.lit ':' :: sepToks (n' :: rest)) (z.drop k) with _ | gs'
      · rw [hmap] at hk
        cases hk
      · obtain ⟨v, hv, hcore⟩ := matchCore_lit_some ':' _ _ _ hmap
        have hcount := ih v gs' hcore
        have hdropcount : (z.drop k).count ':' ≤ z.count ':' :=
          (List.drop_sublist k z).count_le ':'
        rw [hv, List.count_cons_self] at hdropcount
        simp only [List.length_cons] at hcount ⊢
        omega

theorem matchCore_joinColon : ∀ (names : List String) (fields : List (List Char)),
    names ≠ [] → fields.length = names.length →
    (∀ f ∈ fields, ∀ c ∈ f, plainChar c) →
    matchCore (sepToks names) (joinColon fields) =
      some (List.zip names (fields.map (fun f => f.asString))) := by
  intro names
  induction names with
  | nil => intro fields h; exact absurd rfl h
  | cons n names' ih =>
    intro fields _ hlen hplain
    cases fields with
    | nil => simp at hlen
    | cons a fields' =>
      have hadot : ∀ c ∈ a, dotChar c = true :=
        fun c hc => (hplain a (List.mem_cons_self a fields') c hc).2
      cases names' with
      | nil =>
        cases fields' with
        | cons b fs => simp at hlen
        | nil =>
          rw [show sepToks [n] = [.grp n] from rfl,
            show joinColon [a] = a from rfl, matchCore_grp,
            takeWhile_all a hadot, range_reverse_cons, List.findSome?_cons]
          simp [matchCore, List.drop_length, List.take_length]
      | cons n2 rest =>
        have hfne : fields' ≠ [] := by
          intro hc
          rw [hc] at hlen
          simp at hlen
        have hzeq : joinColon (a :: fields') = a ++ ':' :: joinColon fields' :=
          joinColon_cons a fields' hfne
        have hplain' : ∀ f ∈ fields', ∀ c ∈ f, plainChar c :=
          fun f hf => hplain f (List.mem_cons_of_mem a hf)
        have hwdot : ∀ c ∈ joinColon fields', dotChar c = true := by
          intro c hc
          rcases mem_joinColon fields' c hc with rfl | ⟨f, hf, hcf⟩
          · decide
          · exact (hplain' f hf c hcf).2
        have hwcount : (joinColon fields').count ':' = fields'.length - 1 :=
          joinColon_count fields' hfne
            (fun f hf c hc => (hplain' f hf c hc).1)
        have hzdot : ∀ c ∈ joinColon (a :: fields'), dotChar c = true := by
          rw [hzeq]
          intro c hc
          rcases List.mem_append.mp hc with hc | hc
          · exact hadot c hc
          · rcases List.mem_cons.mp hc with rfl | hc
            · decide
            · exact hwdot c hc
        have hIH := ih fields' (by simp) (by simpa using hlen) hplain'
        rw [show sepToks (n :: n2 :: rest) = .grp n :: .lit ':' :: sepToks (n2 :: rest)
          from rfl, matchCore_grp, takeWhile_all _ hzdot]
        refine findSome_desc _ _ a.length _ ?_ ?_ ?_
        · rw [hzeq, List.length_append]
          simp
        · -- a longer first group leaves too few separators for the rest
          intro k hk1 hk2
          dsimp only
          rcases hdk : (joinColon (a :: fields')).drop k with _ | ⟨x, xs⟩
          · simp [matchCore]
          · by_cases hx : x = ':'
            · subst hx
              rcases hmc : matchCore (sepToks (n2 :: rest)) xs with _ | gs2
              · rw [matchCore_lit_colon, hmc]
                rfl
              · exfalso
                have hcnt := matchCore_colon_count _ _ _ hmc
                have hi : k = a.length + (k - a.length) := by omega
                have hdk2 : (joinColon (a :: fields')).drop k =
                    (':' :: joinColon fields').drop (k - a.length) := by
                  rw [hzeq]
                  conv_lhs => rw [hi]
                  rw [List.drop_append]
                have hdk3 : (':' :: joinColon fields').drop (k - a.length) =
                    (joinColon fields').drop (k - a.length - 1) := by
                  rcases hkk : k - a.length with _ | j
                  · omega
                  · simp
                have hxs : (joinColon fields').drop (k - a.length - 1) = ':' :: xs := by
                  rw [← hdk3, ← hdk2, hdk]
                have hsplitc : (joinColon fields').count ':' =
                    ((joinColon fields').take (k - a.length - 1)).count ':' +
                    (':' :: xs).count ':' := by
                  conv_lhs =>
                    rw [← List.take_append_drop (k - a.length - 1) (joinColon fields')]
                  rw [List.count_append, hxs]
                rw [List.count_cons_self] at hsplitc
                rw [hwcount] at hsplitc
                have hL : fields'.length = (n2 :: rest).length := by simpa using hlen
                simp only [List.length_cons] at hcnt hL
                omega
            · simp [matchCore, hx]
        · dsimp only
          rw [hzeq, List.drop_left, List.take_left, matchCore_lit_colon, hIH]
          rfl

theorem matchFrom_of_matchCore (toks : List Tok) (z : List Char)
    (gs : List (String × String)) (h : matchCore toks z = some gs) :
    matchFrom toks z = some gs := by
  unfold matchFrom
  rw [List.range_succ_eq_map, List.findSome?_cons]
  have : matchCore toks (z.drop 0) = some gs := h
  rw [this]

/-- The six capture-group names of the default format, in order. -/
def defaultNames : List String :=
  ["username", "password", "email", "emailPassword", "authToken", "twoFactorSecret"]

theorem toks_default :
    toksOfPattern (buildRegex defaultAccountListFormat) = sepToks defaultNames := by
  decide

theorem splitLinesGo_cons_plain (c : Char) (xs acc : List Char)
    (h1 : c ≠ '\n') (h2 : c ≠ '\r') :
    splitLinesGo (c :: xs) acc = splitLinesGo xs (c :: acc) := by
  unfold splitLinesGo
  rw [if_neg h1, if_neg h2, ← splitLinesGo.eq_def]

theorem splitLinesGo_cons_newline (xs acc : List Char) :
    splitLinesGo ('\n' :: xs) acc = acc.reverse :: splitLinesGo xs [] := by
  unfold splitLinesGo
  rw [if_pos rfl, ← splitLinesGo.eq_def]

theorem splitLinesGo_plain : ∀ (l acc rest : List Char),
    (∀ c ∈ l, c ≠ '\n' ∧ c ≠ '\r') →
    splitLinesGo (l ++ rest) acc = splitLinesGo rest (l.reverse ++ acc) := by
  intro l
  induction l with
  | nil =>
    intro acc rest _
    rfl
  | cons c cs ih =>
    intro acc rest h
    have hc := h c (List.mem_cons_self c cs)
    rw [List.cons_append, splitLinesGo_cons_plain c (cs ++ rest) acc hc.1 hc.2,
      ih (c :: acc) rest (fun x hx => h x (List.mem_cons_of_mem c hx))]
    simp

theorem splitLines_joinLines : ∀ (ls : List (List Char)), ls ≠ [] →
    (∀ l ∈ ls, ∀ c ∈ l, c ≠ '\n' ∧ c ≠ '\r') →
    splitLines (joinLines ls) = ls := by
  intro ls
  induction ls with
  | nil => intro h; exact absurd rfl h
  | cons l ls' ih =>
    intro _ hfree
    cases ls' with
    | nil =>
      show splitLinesGo (joinLines [l]) [] = [l]
      have : joinLines [l] = l ++ [] := by simp [joinLines]
      rw [this, splitLinesGo_plain l [] [] (hfree l (List.mem_cons_self l []))]
      simp [splitLinesGo]
    | cons l2 ls'' =>
      show splitLinesGo (joinLines (l :: l2 :: ls'')) [] = l :: l2 :: ls''
      rw [joinLines_cons l (l2 :: ls'') (by simp),
        splitLinesGo_plain l [] ('\n' :: joinLines (l2 :: ls''))
          (hfree l (List.mem_cons_self l _))]
      rw [splitLinesGo_cons_newline]
      rw [List.append_nil, List.reverse_reverse]
      have := ih (by simp) (fun l' hl' => hfree l' (List.mem_cons_of_mem l hl'))
      exact congrArg (l :: ·) this

theorem lineOfAccount_eq (r : AccountInfo) :
    lineOfAccount r = joinColon [r.username.data, r.password.data, r.email.data,
      r.emailPassword.data, r.authToken.data, r.twoFactorSecret.data] := rfl

theorem plainAccount_fields (r : AccountInfo) (h : plainAccount r) :
    ∀ f ∈ [r.username.data, r.password.data, r.email.data,
      r.emailPassword.data, r.authToken.data, r.twoFactorSecret.data],
      ∀ c ∈ f, plainChar c := by
  obtain ⟨h1, h2, h3, h4, h5, h6⟩ := h
  intro f hf
  simp only [List.mem_cons, List.mem_singleton] at hf
  rcases hf with rfl | rfl | rfl | rfl | rfl | rfl | hf
  · exact h1
  · exact h2
  · exact h3
  · exact h4
  · exact h5
  · exact h6
  · cases hf

theorem matchFrom_lineOfAccount (r : AccountInfo) (h : plainAccount r) :
    matchFrom (sepToks defaultNames) (lineOfAccount r) =
      some [("username", r.username), ("password", r.password), ("email", r.email),
            ("emailPassword", r.emailPassword), ("authToken", r.authToken),
            ("twoFactorSecret", r.twoFactorSecret)] := by
  have hm := matchCore_joinColon defaultNames
    [r.username.data, r.password.data, r.email.data,
     r.emailPassword.data, r.authToken.data, r.twoFactorSecret.data]
    (by simp [defaultNames]) (by simp [defaultNames]) (plainAccount_fields r h)
  rw [lineOfAccount_eq]
  rw [matchFrom_of_matchCore _ _ _ hm]
  rfl

theorem mkParsed_groups (r : AccountInfo) :
    mkParsed [("username", r.username), ("password", r.password), ("email", r.email),
              ("emailPassword", r.emailPassword), ("authToken", r.authToken),
              ("twoFactorSecret", r.twoFactorSecret)] = parsedOfInfo r := by
  simp [mkParsed, groupVal, List.find?, parsedOfInfo]

theorem plainChar_not_newline (c : Char) (h : plainChar c) : c ≠ '\n' ∧ c ≠ '\r' := by
  obtain ⟨-, hdot⟩ := h
  unfold dotChar at hdot
  constructor
  · intro hc
    subst hc
    simp at hdot
  · intro hc
    subst hc
    simp at hdot

theorem lineOfAccount_chars (r : AccountInfo) (h : plainAccount r) :
    ∀ c ∈ lineOfAccount r, c ≠ '\n' ∧ c ≠ '\r' := by
  intro c hc
  rw [lineOfAccount_eq] at hc
  rcases mem_joinColon _ c hc with rfl | ⟨f, hf, hcf⟩
  · exact ⟨by decide, by decide⟩
  · exact plainChar_not_newline c (plainAccount_fields r h f hf c hcf)

theorem lineOfAccount_ne_nil (r : AccountInfo) : lineOfAccount r ≠ [] := by
  rw [lineOfAccount_eq, joinColon_cons _ _ (by simp)]
  intro hc
  rcases List.append_eq_nil.mp hc with ⟨-, hc2⟩
  cases hc2

theorem parseLines_map (records : List AccountInfo) :
    ∀ idx, (∀ r ∈ records, plainAccount r) →
    parseLinesGo (sepToks defaultNames) (records.map lineOfAccount) idx =
      .ok (records.map parsedOfInfo) := by
  induction records with
  | nil => intro idx _; rfl
  | cons r rs ih =>
    intro idx h
    have hr := h r (List.mem_cons_self r rs)
    simp only [List.map_cons, parseLinesGo]
    rw [matchFrom_lineOfAccount r hr]
    rw [ih (idx + 1) (fun r' hr' => h r' (List.mem_cons_of_mem r hr'))]
    simp [mkParsed_groups]

set_option maxRecDepth 4000 in
/-- C6 counterexample: a record whose fields contain no `:` at all but whose
username contains a newline does not survive the round trip — serialization
splits it across two lines and parsing then fails (line 1 has no colons). -/
theorem c6_counterexample :
    (∀ c ∈ ("a\nb" : String).data, c ≠ ':') ∧
    parseAccountList (serializeAccounts [⟨"a\nb", "p", "e", "ep", "t", "tf"⟩])
        defaultAccountListFormat = .error ⟨1⟩ ∧
    parseAccountList (serializeAccounts [⟨"a\nb", "p", "e", "ep", "t", "tf"⟩])
        defaultAccountListFormat ≠
      .ok ([(⟨"a\nb", "p", "e", "ep", "t", "tf"⟩ : AccountInfo)].map parsedOfInfo) := by
  refine ⟨by decide, by decide, by decide⟩

/-- C6 (amended): for every list of records whose field values contain no
`:` and no line-terminator characters (`\n`, `\r`, U+2028, U+2029 — the
characters the generated regex's `.` refuses or the line split consumes),
parsing the text obtained by serializing the records with the `:`-separated
default format yields exactly the original records. -/
theorem c6_parse_serialize_roundtrip (records : List AccountInfo)
    (h : ∀ r ∈ records, plainAccount r) :
    parseAccountList (serializeAccounts records) defaultAccountListFormat =
      .ok (records.map parsedOfInfo) := by
  cases records with
  | nil => decide
  | cons r rs =>
    unfold parseAccountList
    rw [toks_default]
    have hdata : (serializeAccounts (r :: rs)).data =
        joinLines ((r :: rs).map lineOfAccount) := rfl
    rw [hdata]
    rw [splitLines_joinLines _ (by simp) (by
      intro l hl
      rcases List.mem_map.mp hl with ⟨r', hr', rfl⟩
      exact lineOfAccount_chars r' (h r' hr'))]
    have hfilter : ((r :: rs).map lineOfAccount).filter (fun l => !l.isEmpty) =
        (r :: rs).map lineOfAccount := by
      rw [List.filter_eq_self]
      intro l hl
      rcases List.mem_map.mp hl with ⟨r', -, rfl⟩
      simpa [List.isEmpty_iff] using lineOfAccount_ne_nil r'
    rw [hfilter]
    exact parseLines_map (r :: rs) 0 h

/-- Witness for C6 at a one-record store. -/
theorem c6_parse_serialize_roundtrip_witness :
    (∀ r ∈ [(⟨"alice", "pw", "a@x", "ep", "tok", "tfs"⟩ : AccountInfo)], plainAccount r) ∧
    parseAccountList
        (serializeAccounts [(⟨"alice", "pw", "a@x", "ep", "tok", "tfs"⟩ : AccountInfo)])
        defaultAccountListFormat =
      .ok ([(⟨"alice", "pw", "a@x", "ep", "tok", "tfs"⟩ : AccountInfo)].map parsedOfInfo) := by
  refine ⟨by decide, ?_⟩
  exact c6_parse_serialize_roundtrip [⟨"alice", "pw", "a@x", "ep", "tok", "tfs"⟩]
    (by decide)

/-! ### C10: `parseAccountList` is all-or-nothing -/

theorem parseLinesGo_ok (toks : List Tok) :
    ∀ (ls : List (List Char)) (idx : Nat),
    (∀ l ∈ ls, (matchFrom toks l).isSome) →
    ∃ out, parseLinesGo toks ls idx = .ok out ∧ out.length = ls.length := by
  intro ls
  induction ls with
  | nil =>
    intro idx _
    exact ⟨[], rfl, rfl⟩
  | cons l rest ih =>
    intro idx h
    rcases hm : matchFrom toks l with _ | gs
    · have := h l (List.mem_cons_self l rest)
      rw [hm] at this
      cases this
    · obtain ⟨out, hout, hlen⟩ := ih (idx + 1)
        (fun l' hl' => h l' (List.mem_cons_of_mem l hl'))
      refine ⟨mkParsed gs :: out, ?_, by simp [hlen]⟩
      simp only [parseLinesGo]
      rw [hm, hout]

theorem parseLinesGo_err (toks : List Tok) :
    ∀ (ls : List (List Char)) (idx : Nat),
    (∃ l ∈ ls, matchFrom toks l = none) →
    ∃ i, i < ls.length ∧ parseLinesGo toks ls idx = .error ⟨idx + i + 1⟩ ∧
      matchFrom toks (ls.getD i []) = none ∧
      ∀ j < i, (matchFrom toks (ls.getD j [])).isSome := by
  intro ls
  induction ls with
  | nil =>
    intro idx h
    obtain ⟨l, hl, -⟩ := h
    cases hl
  | cons l rest ih =>
    intro idx h
    rcases hm : matchFrom toks l with _ | gs
    · refine ⟨0, by simp, ?_, by simpa using hm, by omega⟩
      simp only [parseLinesGo]
      rw [hm]
    · have hrest : ∃ l' ∈ rest, matchFrom toks l' = none := by
        obtain ⟨l', hl', hnone⟩ := h
        rcases List.mem_cons.mp hl' with rfl | hl'
        · rw [hm] at hnone
          cases hnone
        · exact ⟨l', hl', hnone⟩
      obtain ⟨i, hi, herr, hbad, hgood⟩ := ih (idx + 1) hrest
      refine ⟨i + 1, by simpa using hi, ?_, by simpa using hbad, ?_⟩
      · simp only [parseLinesGo]
        rw [hm, herr]
        have : idx + 1 + i + 1 = idx + (i + 1) + 1 := by omega
        rw [this]
      · intro j hj
        cases j with
        | zero =>
          simp only [List.getD_cons_zero]
          rw [hm]
          rfl
        | succ j' =>
          simp only [List.getD_cons_succ]
          exact hgood j' (by omega)

set_option maxRecDepth 4000 in
/-- C10 counterexample: in the input `"a:b:c:d:e:f\n\nzz"` the failing line
`zz` is the third line of the text, but the thrown error names line 2 — the
index is computed after empty lines have been filtered out, so the reported
number is the line's position among the non-empty lines, not in the input
text. -/
theorem c10_counterexample :
    parseAccountList "a:b:c:d:e:f\n\nzz" defaultAccountListFormat = .error ⟨2⟩ ∧
    ((splitLines ("a:b:c:d:e:f\n\nzz" : String).data).findIdx? (fun l =>
        !l.isEmpty && (matchFrom (toksOfPattern (buildRegex defaultAccountListFormat))
          l).isNone)).map (· + 1) = some 3 ∧
    (2 : Nat) ≠ 3 := by
  refine ⟨by decide, by decide, by decide⟩

/-- C10 (amended): `parseAccountList` is all-or-nothing — empty lines are
skipped, a record list is returned exactly when every non-empty line matches
the format-derived regex, and otherwise the function throws an error naming
the 1-based position of the first failing line among the non-empty lines
(not its line number in the raw input). -/
theorem c10_parse_all_or_nothing (csvish format : String) :
    ((∀ l ∈ (splitLines csvish.data).filter (fun l => !l.isEmpty),
        (matchFrom (toksOfPattern (buildRegex format)) l).isSome) →
      ∃ out, parseAccountList csvish format = .ok out ∧
        out.length = ((splitLines csvish.data).filter (fun l => !l.isEmpty)).length) ∧
    ((∃ l ∈ (splitLines csvish.data).filter (fun l => !l.isEmpty),
        matchFrom (toksOfPattern (buildRegex format)) l = none) →
      ∃ i, i < ((splitLines csvish.data).filter (fun l => !l.isEmpty)).length ∧
        parseAccountList csvish format = .error ⟨i + 1⟩ ∧
        matchFrom (toksOfPattern (buildRegex format))
          (((splitLines csvish.data).filter (fun l => !l.isEmpty)).getD i []) = none ∧
        ∀ j < i, (matchFrom (toksOfPattern (buildRegex format))
          (((splitLines csvish.data).filter (fun l => !l.isEmpty)).getD j [])).isSome) := by
  constructor
  · intro h
    exact parseLinesGo_ok _ _ 0 h
  · intro h
    obtain ⟨i, hi, herr, hbad, hgood⟩ := parseLinesGo_err
      (toksOfPattern (buildRegex format))
      ((splitLines csvish.data).filter (fun l => !l.isEmpty)) 0 h
    refine ⟨i, hi, ?_, hbad, hgood⟩
    have : (0 : Nat) + i + 1 = i + 1 := by omega
    rw [← this]
    exact herr

set_option maxRecDepth 4000 in
/-- Witness for C10 at an input whose second non-empty line fails. -/
theorem c10_parse_all_or_nothing_witness :
    (∃ l ∈ (splitLines ("a:b:c:d:e:f\nbad" : String).data).filter (fun l => !l.isEmpty),
      matchFrom (toksOfPattern (buildRegex defaultAccountListFormat)) l = none) ∧
    (∃ i, i < ((splitLines ("a:b:c:d:e:f\nbad" : String).data).filter
        (fun l => !l.isEmpty)).length ∧
      parseAccountList "a:b:c:d:e:f\nbad" defaultAccountListFormat = .error ⟨i + 1⟩ ∧
      matchFrom (toksOfPattern (buildRegex defaultAccountListFormat))
        (((splitLines ("a:b:c:d:e:f\nbad" : String).data).filter
          (fun l => !l.isEmpty)).getD i []) = none ∧
      ∀ j < i, (matchFrom (toksOfPattern (buildRegex defaultAccountListFormat))
        (((splitLines ("a:b:c:d:e:f\nbad" : String).data).filter
          (fun l => !l.isEmpty)).getD j [])).isSome) := by
  refine ⟨by decide, ?_⟩
  exact (c10_parse_all_or_nothing "a:b:c:d:e:f\nbad" defaultAccountListFormat).2 (by decide)

end Docial
